import Mathlib

/-!
Verification of the BlockGrid puzzle core (src/src/BlockGrid.js).

The source is a JavaScript class holding a `width × height` array of `Block`
objects, `grid[x][y]`, each with immutable coordinates `x`, `y` and a mutable
`colour` that is either a string or `null` (the empty marker).  Clicking a
block removes the 4-connected component of equally coloured blocks by setting
their colour to `null`, then lets the surviving colours fall downward in each
affected column.

Embedding conventions:
* A JS colour value (`string` or `null`) is `Option String`; `none` is `null`.
* Coordinates are `Int` (the traversal produces speculative coordinates such
  as `-1`).
* JS array indexing `a[i]` is `jsIndex`, which yields `none` exactly when the
  index is outside the array; dereferencing a missing element (`undefined.colour`
  in JS throws a `TypeError`) is modelled by propagating `none` through an
  `Option`-valued result.  A function returning `none` therefore models the JS
  code raising a runtime error at an out-of-bounds storage access.
* The methods of the class take `this` apart into its immutable fields
  (`width`, `height`, passed as fixed `Nat` parameters) and the mutable cell
  storage (`Storage`, passed and returned as explicit state).
-/

/-- A `Block` from `Block.js`.
Modelled from the spec: the repository imports `./Block`, whose file is not
under `src/`.  Per the spec's data model, a Cell is "identified by an
immutable pair (x, y) assigned at creation" and "holds a mutable `colour`
attribute, which is either a color identifier or an empty marker"; the initial
colour comes from an external colour-assignment policy. -/
structure Block where
  x : Int
  y : Int
  colour : Option String
deriving Repr, DecidableEq

/-- The mutable cell storage `this.grid`: an array of columns of blocks. -/
abbrev Storage := List (List Block)

/-- JS array read `a[i]` with an `Int` index: `some` the element when
`0 ≤ i < a.length`, otherwise `none` (JS `undefined`). -/
def jsIndex (l : List α) (i : Int) : Option α :=
  if 0 ≤ i then l[i.toNat]? else none

/-- Reading the block `this.grid[row][column]`; `none` when either index is
out of the stored arrays (in JS the subsequent member access throws). -/
def cellAt (st : Storage) (row column : Int) : Option Block :=
  (jsIndex st row).bind fun col => jsIndex col column

/-- Reading `this.grid[row][column].colour`; `none` models the JS `TypeError`
on a missing element, `some c` is the colour read. -/
def colourAt (st : Storage) (row column : Int) : Option (Option String) :=
  (cellAt st row column).map fun b => b.colour

/-- The assignment `this.grid[row][column].colour = v`: `none` (JS throws)
when the cell does not exist, otherwise the updated storage. -/
def setCellColour (st : Storage) (row column : Int) (v : Option String) :
    Option Storage :=
  match jsIndex st row with
  | none => none
  | some col =>
    match jsIndex col column with
    | none => none
    | some b => some (st.set row.toNat (col.set column.toNat { b with colour := v }))

/-- `withinBoundaries` from the source:
`row >= 0 && column >= 0 && row < this.width && column < this.height`. -/
def withinBoundaries (w h : Nat) (row column : Int) : Bool :=
  decide (0 ≤ row) && decide (0 ≤ column) && decide (row < (w : Int)) && decide (column < (h : Int))

/-- `checkBlockColour` from the source:
`this.grid[row][column].colour === colour` (`none` = the access threw). -/
def checkBlockColour (st : Storage) (row column : Int) (colour : Option String) :
    Option Bool :=
  (cellAt st row column).map fun b => b.colour == colour

/-- `removeBlock` from the source: `this.grid[row][column].colour = null`. -/
def removeBlock (st : Storage) (row column : Int) : Option Storage :=
  setCellColour st row column none

/-- The finite set of in-bounds coordinates, used as the termination measure
for the traversal (the JS `parsedBlocks` set only ever receives in-bounds
coordinates). -/
def boundsFinset (w h : Nat) : Finset (Int × Int) :=
  (Finset.range w ×ˢ Finset.range h).image fun p => ((p.1 : Int), (p.2 : Int))

/-- The `while (adjacentBlocks.length > 0)` loop of `removeConnectedBlocks`.
The stack is a list whose head is the array end (`push`/`pop` site), `parsed`
is the JS `Set` of visited coordinate keys (the key string `` `${row},${column}` ``
is injective on integer pairs, so a set of pairs is faithful), and `removed`
is `removedBlockArray` (`push` appends at the right).  On removal the four
neighbours are pushed in source order `[0,1], [0,-1], [1,0], [-1,0]`, so the
last-pushed `(row-1, column)` ends at the head. -/
def removeLoop (w h : Nat) (colour : Option String) (st : Storage)
    (stack : List (Int × Int)) (parsed : Finset (Int × Int))
    (removed : List (Int × Int)) : Option (Storage × List (Int × Int)) :=
  match stack with
  | [] => some (st, removed)
  | (row, column) :: rest =>
    if hg : withinBoundaries w h row column = true ∧ (row, column) ∉ parsed then
      match checkBlockColour st row column colour with
      | none => none
      | some b =>
        if b then
          match removeBlock st row column with
          | none => none
          | some st' =>
            removeLoop w h colour st'
              ((row - 1, column) :: (row + 1, column) :: (row, column - 1) ::
                (row, column + 1) :: rest)
              (insert (row, column) parsed) (removed ++ [(row, column)])
        else
          removeLoop w h colour st rest (insert (row, column) parsed) removed
    else
      removeLoop w h colour st rest parsed removed
termination_by 5 * (w * h - (parsed ∩ boundsFinset w h).card) + stack.length
decreasing_by
  · have hmem : (row, column) ∈ boundsFinset w h := by
      simp only [boundsFinset, Finset.mem_image, Finset.mem_product, Finset.mem_range,
        Prod.exists]
      have hb := hg.1
      simp only [withinBoundaries, Bool.and_eq_true, decide_eq_true_eq] at hb
      refine ⟨row.toNat, column.toNat, ⟨?_, ?_⟩, ?_⟩
      · omega
      · omega
      · simp only [Prod.mk.injEq]
        omega
    have hins : (insert (row, column) parsed ∩ boundsFinset w h)
        = insert (row, column) (parsed ∩ boundsFinset w h) :=
      Finset.insert_inter_of_mem hmem
    have hnotmem : (row, column) ∉ parsed ∩ boundsFinset w h := by
      intro hc
      exact hg.2 (Finset.mem_inter.mp hc).1
    have hcard : (insert (row, column) parsed ∩ boundsFinset w h).card
        = (parsed ∩ boundsFinset w h).card + 1 := by
      rw [hins, Finset.card_insert_of_not_mem hnotmem]
    have hle : (insert (row, column) parsed ∩ boundsFinset w h).card ≤ w * h := by
      calc (insert (row, column) parsed ∩ boundsFinset w h).card
          ≤ (boundsFinset w h).card := Finset.card_le_card Finset.inter_subset_right
        _ ≤ ((Finset.range w ×ˢ Finset.range h).card) := Finset.card_image_le
        _ = w * h := by rw [Finset.card_product, Finset.card_range, Finset.card_range]
    simp only [List.length_cons]
    omega
  · have hmem : (row, column) ∈ boundsFinset w h := by
      simp only [boundsFinset, Finset.mem_image, Finset.mem_product, Finset.mem_range,
        Prod.exists]
      have hb := hg.1
      simp only [withinBoundaries, Bool.and_eq_true, decide_eq_true_eq] at hb
      refine ⟨row.toNat, column.toNat, ⟨?_, ?_⟩, ?_⟩
      · omega
      · omega
      · simp only [Prod.mk.injEq]
        omega
    have hins : (insert (row, column) parsed ∩ boundsFinset w h)
        = insert (row, column) (parsed ∩ boundsFinset w h) :=
      Finset.insert_inter_of_mem hmem
    have hnotmem : (row, column) ∉ parsed ∩ boundsFinset w h := by
      intro hc
      exact hg.2 (Finset.mem_inter.mp hc).1
    have hcard : (insert (row, column) parsed ∩ boundsFinset w h).card
        = (parsed ∩ boundsFinset w h).card + 1 := by
      rw [hins, Finset.card_insert_of_not_mem hnotmem]
    have hle : (insert (row, column) parsed ∩ boundsFinset w h).card ≤ w * h := by
      calc (insert (row, column) parsed ∩ boundsFinset w h).card
          ≤ (boundsFinset w h).card := Finset.card_le_card Finset.inter_subset_right
        _ ≤ ((Finset.range w ×ˢ Finset.range h).card) := Finset.card_image_le
        _ = w * h := by rw [Finset.card_product, Finset.card_range, Finset.card_range]
    simp only [List.length_cons]
    omega
  · simp only [List.length_cons]
    omega

/-- The traversal loop of `removeConnectedBlocks` instrumented with its cost:
the first component counts loop iterations (one per `pop`), the second logs,
in order, every coordinate the loop marks visited (its `parsedBlocks.add`).
The branching is exactly that of `removeLoop`; the grid and removed-list
bookkeeping is dropped since only the cost is observed. -/
def removeLoopSteps (w h : Nat) (colour : Option String) (st : Storage)
    (stack : List (Int × Int)) (parsed : Finset (Int × Int)) :
    Nat × List (Int × Int) :=
  match stack with
  | [] => (0, [])
  | (row, column) :: rest =>
    if hg : withinBoundaries w h row column = true ∧ (row, column) ∉ parsed then
      match checkBlockColour st row column colour with
      | none => (1, [(row, column)])
      | some b =>
        if b then
          match removeBlock st row column with
          | none => (1, [(row, column)])
          | some st' =>
            let r := removeLoopSteps w h colour st'
              ((row - 1, column) :: (row + 1, column) :: (row, column - 1) ::
                (row, column + 1) :: rest)
              (insert (row, column) parsed)
            (r.1 + 1, (row, column) :: r.2)
        else
          let r := removeLoopSteps w h colour st rest (insert (row, column) parsed)
          (r.1 + 1, (row, column) :: r.2)
    else
      let r := removeLoopSteps w h colour st rest parsed
      (r.1 + 1, r.2)
termination_by 5 * (w * h - (parsed ∩ boundsFinset w h).card) + stack.length
decreasing_by
  · have hmem : (row, column) ∈ boundsFinset w h := by
      simp only [boundsFinset, Finset.mem_image, Finset.mem_product, Finset.mem_range,
        Prod.exists]
      have hb := hg.1
      simp only [withinBoundaries, Bool.and_eq_true, decide_eq_true_eq] at hb
      refine ⟨row.toNat, column.toNat, ⟨?_, ?_⟩, ?_⟩
      · omega
      · omega
      · simp only [Prod.mk.injEq]
        omega
    have hins : (insert (row, column) parsed ∩ boundsFinset w h)
        = insert (row, column) (parsed ∩ boundsFinset w h) :=
      Finset.insert_inter_of_mem hmem
    have hnotmem : (row, column) ∉ parsed ∩ boundsFinset w h := by
      intro hc
      exact hg.2 (Finset.mem_inter.mp hc).1
    have hcard : (insert (row, column) parsed ∩ boundsFinset w h).card
        = (parsed ∩ boundsFinset w h).card + 1 := by
      rw [hins, Finset.card_insert_of_not_mem hnotmem]
    have hle : (insert (row, column) parsed ∩ boundsFinset w h).card ≤ w * h := by
      calc (insert (row, column) parsed ∩ boundsFinset w h).card
          ≤ (boundsFinset w h).card := Finset.card_le_card Finset.inter_subset_right
        _ ≤ ((Finset.range w ×ˢ Finset.range h).card) := Finset.card_image_le
        _ = w * h := by rw [Finset.card_product, Finset.card_range, Finset.card_range]
    simp only [List.length_cons]
    omega
  · have hmem : (row, column) ∈ boundsFinset w h := by
      simp only [boundsFinset, Finset.mem_image, Finset.mem_product, Finset.mem_range,
        Prod.exists]
      have hb := hg.1
      simp only [withinBoundaries, Bool.and_eq_true, decide_eq_true_eq] at hb
      refine ⟨row.toNat, column.toNat, ⟨?_, ?_⟩, ?_⟩
      · omega
      · omega
      · simp only [Prod.mk.injEq]
        omega
    have hins : (insert (row, column) parsed ∩ boundsFinset w h)
        = insert (row, column) (parsed ∩ boundsFinset w h) :=
      Finset.insert_inter_of_mem hmem
    have hnotmem : (row, column) ∉ parsed ∩ boundsFinset w h := by
      intro hc
      exact hg.2 (Finset.mem_inter.mp hc).1
    have hcard : (insert (row, column) parsed ∩ boundsFinset w h).card
        = (parsed ∩ boundsFinset w h).card + 1 := by
      rw [hins, Finset.card_insert_of_not_mem hnotmem]
    have hle : (insert (row, column) parsed ∩ boundsFinset w h).card ≤ w * h := by
      calc (insert (row, column) parsed ∩ boundsFinset w h).card
          ≤ (boundsFinset w h).card := Finset.card_le_card Finset.inter_subset_right
        _ ≤ ((Finset.range w ×ˢ Finset.range h).card) := Finset.card_image_le
        _ = w * h := by rw [Finset.card_product, Finset.card_range, Finset.card_range]
    simp only [List.length_cons]
    omega
  · simp only [List.length_cons]
    omega

/-- `blockBelowIsEmpty` from the source:
`this.grid[x][y].colour === null && this.grid[x][y + 1]`; the second conjunct
is JS truthiness of the element above (`undefined` when `y + 1` is outside the
column).  `none` models the access `this.grid[x][y]` throwing. -/
def blockBelowIsEmpty (st : Storage) (x y : Int) : Option Bool :=
  (jsIndex st x).bind fun col =>
    (jsIndex col y).map fun b => (b.colour == none) && (jsIndex col (y + 1)).isSome

/-- `moveBlockDown` from the source:
`this.grid[x][y].colour = this.grid[x][y + 1].colour; this.grid[x][y + 1].colour = null`.
`none` models either member access throwing. -/
def moveBlockDown (st : Storage) (x y : Int) : Option Storage :=
  match colourAt st x (y + 1) with
  | none => none
  | some c =>
    match setCellColour st x y c with
    | none => none
    | some st1 => setCellColour st1 x (y + 1) none

/-- The inner `while (this.blockBelowIsEmpty(x, currentRow))` loop of
`shiftBlocksDownward`, advancing `currentRow` by one per `moveBlockDown`. -/
def shiftLoop (st : Storage) (x : Int) (currentRow : Int) : Option Storage :=
  match hb : blockBelowIsEmpty st x currentRow with
  | none => none
  | some false => some st
  | some true =>
    match hm : moveBlockDown st x currentRow with
    | none => none
    | some st2 => shiftLoop st2 x (currentRow + 1)
termination_by ((jsIndex st x).map List.length).getD 0 - currentRow.toNat
decreasing_by
  simp only [blockBelowIsEmpty, Option.bind_eq_some, Option.map_eq_some'] at hb
  obtain ⟨col, hcol, b, hbidx, hbv⟩ := hb
  have hx0 : 0 ≤ x := by
    by_contra hneg
    simp only [jsIndex, if_neg hneg] at hcol
    exact Option.noConfusion hcol
  have hrow0 : 0 ≤ currentRow := by
    by_contra hneg
    simp only [jsIndex, if_neg hneg] at hbidx
    exact Option.noConfusion hbidx
  simp only [jsIndex, if_pos hx0] at hcol
  simp only [jsIndex, if_pos hrow0] at hbidx
  simp only [Bool.and_eq_true] at hbv
  have hrow1 : 0 ≤ currentRow + 1 := by omega
  have habove : (currentRow + 1).toNat < col.length := by
    have hs := hbv.2
    simp only [jsIndex, if_pos hrow1, Option.isSome_iff_exists] at hs
    obtain ⟨a, ha⟩ := hs
    exact (List.getElem?_eq_some.mp ha).1
  have hblen : currentRow.toNat < col.length := (List.getElem?_eq_some.mp hbidx).1
  have hxlen : x.toNat < st.length := (List.getElem?_eq_some.mp hcol).1
  -- destructure moveBlockDown to see that the column keeps its length
  have hcolAt : colourAt st x (currentRow + 1)
      = some ((col.get ⟨(currentRow + 1).toNat, habove⟩).colour) := by
    simp only [colourAt, cellAt, jsIndex, if_pos hx0, if_pos hrow1, hcol, Option.some_bind]
    simp only [List.getElem?_eq_getElem habove, Option.map_some', List.get_eq_getElem]
  simp only [moveBlockDown, hcolAt] at hm
  have hjsst : jsIndex st x = some col := by
    simp only [jsIndex, if_pos hx0]
    exact hcol
  have hcell : jsIndex col currentRow = some b := by
    simp only [jsIndex, if_pos hrow0]
    exact hbidx
  have hset1 : setCellColour st x currentRow ((col.get ⟨(currentRow + 1).toNat, habove⟩).colour)
      = some (st.set x.toNat (col.set currentRow.toNat
        { b with colour := (col.get ⟨(currentRow + 1).toNat, habove⟩).colour })) := by
    simp only [setCellColour, hjsst, hcell]
  rw [hset1] at hm
  set col1 := col.set currentRow.toNat
    { b with colour := (col.get ⟨(currentRow + 1).toNat, habove⟩).colour } with hcol1def
  have hcol1len : col1.length = col.length := by
    simp [hcol1def]
  have hjs1 : jsIndex (st.set x.toNat col1) x = some col1 := by
    simp only [jsIndex, if_pos hx0]
    exact List.getElem?_set_self hxlen
  have habove1 : (currentRow + 1).toNat < col1.length := by
    rw [hcol1len]
    exact habove
  have hcell1 : jsIndex col1 (currentRow + 1) = some (col1.get ⟨(currentRow + 1).toNat, habove1⟩) := by
    simp only [jsIndex, if_pos hrow1]
    simp [List.getElem?_eq_getElem habove1]
  simp only [setCellColour, hjs1, hcell1, Option.some.injEq] at hm
  have hst2col : jsIndex st2 x = some (col1.set (currentRow + 1).toNat
      { col1.get ⟨(currentRow + 1).toNat, habove1⟩ with colour := none }) := by
    rw [← hm]
    simp only [jsIndex, if_pos hx0, List.set_set]
    have hxlen2 : x.toNat < st.length := hxlen
    rw [List.getElem?_set_self]
    simpa using hxlen2
  rw [hst2col, hjsst]
  simp only [Option.map_some', Option.getD_some, List.length_set, List.get_eq_getElem]
  rw [hcol1len]
  omega

/-- The `for (let yPos = this.height - 1; yPos >= 0; yPos--)` loop of
`shiftBlocksDownward` for one removed block's column `x`; the list argument is
the descending sequence of `yPos` values, `[height-1, ..., 0]`. -/
def shiftPass (st : Storage) (x : Int) : List Nat → Option Storage
  | [] => some st
  | yPos :: rest =>
    match shiftLoop st x (yPos : Int) with
    | none => none
    | some st' => shiftPass st' x rest

/-- `shiftBlocksDownward` from the source: `removedBlockArray.forEach(([x, y]) => ...)`,
running the descending `yPos` pass over column `x` for every removed block
(the removed block's `y` is not used). -/
def shiftRemovedBlocks (h : Nat) (st : Storage) : List (Int × Int) → Option Storage
  | [] => some st
  | (x, _) :: rest =>
    match shiftPass st x ((List.range h).reverse) with
    | none => none
    | some st' => shiftRemovedBlocks h st' rest

/-- The `BlockGrid` object: immutable `width`/`height` and the cell storage. -/
structure BlockGrid where
  width : Nat
  height : Nat
  grid : Storage
deriving Repr, DecidableEq

/-- The `BlockGrid` constructor: `width`/`height` default to 10; each column
`x` holds blocks `new Block(x, y)` for `y = 0 .. height-1`.  The initial
colour of each block comes from `Block`'s constructor, which the spec leaves
to an external colour-assignment policy; the policy is a parameter here. -/
def BlockGrid.init (policy : Nat → Nat → Option String) (width : Nat := 10)
    (height : Nat := 10) : BlockGrid :=
  { width := width
    height := height
    grid := (List.range width).map fun i =>
      (List.range height).map fun j =>
        { x := Int.ofNat i, y := Int.ofNat j, colour := policy i j } }

/-- `removeConnectedBlocks` from the source: seeds the work stack with
`[x, y]`, starts with an empty visited set and runs the traversal loop;
returns the final grid and the removed-list (the source mutates
`removedBlockArray` in place and returns `this`). -/
def BlockGrid.removeConnectedBlocks (g : BlockGrid) (x y : Int)
    (colour : Option String) : Option (BlockGrid × List (Int × Int)) :=
  (removeLoop g.width g.height colour g.grid [(x, y)] ∅ []).map fun r =>
    ({ g with grid := r.1 }, r.2)

/-- `shiftBlocksDownward` from the source, at the grid level. -/
def BlockGrid.shiftBlocksDownward (g : BlockGrid) (removed : List (Int × Int)) :
    Option BlockGrid :=
  (shiftRemovedBlocks g.height g.grid removed).map fun st => { g with grid := st }

/-- `blockClicked` from the source: destructures the clicked block's own
`{ x, y, colour }`; when `colour !== null` it removes the connected blocks and
shifts blocks downward (the trailing `resetGrid().render()` is DOM work with
no effect on the grid state).  Returns the resulting grid and the removed-list
(empty when the click was a no-op). -/
def BlockGrid.blockClicked (g : BlockGrid) (x y : Int) :
    Option (BlockGrid × List (Int × Int)) :=
  match cellAt g.grid x y with
  | none => none
  | some b =>
    if b.colour.isSome then
      match g.removeConnectedBlocks b.x b.y b.colour with
      | none => none
      | some (g1, removed) =>
        match g1.shiftBlocksDownward removed with
        | none => none
        | some g2 => some (g2, removed)
    else some (g, [])

/-- Well-formed storage: `width` columns of `height` cells, as established by
the constructor and preserved by every mutation (which only rewrites a
`colour`). -/
def WFS (w h : Nat) (st : Storage) : Prop :=
  st.length = w ∧ ∀ col ∈ st, col.length = h

/-- A well-formed grid. -/
def BlockGrid.WF (g : BlockGrid) : Prop :=
  WFS g.width g.height g.grid

/-- The coordinate skeleton of the storage: everything except the colours.
Two storages with the same `shapeOf` have the same number of columns, the
same column lengths and identical `(x, y)` fields everywhere. -/
def shapeOf (st : Storage) : List (List (Int × Int)) :=
  st.map fun col => col.map fun b => (b.x, b.y)

/-- The colour sequence of column `x` (bottom `y = 0` first). -/
def colsOf (st : Storage) (x : Int) : Option (List (Option String)) :=
  (jsIndex st x).map fun col => col.map Block.colour

/-- 4-orthogonal adjacency: `q` is one of the four neighbours pushed for `p`. -/
def adjacent (p q : Int × Int) : Prop :=
  q = (p.1, p.2 + 1) ∨ q = (p.1, p.2 - 1) ∨ q = (p.1 + 1, p.2) ∨ q = (p.1 - 1, p.2)

/-- One step between same-coloured in-bounds cells (read on the given
storage). -/
def sameColourAdj (w h : Nat) (st : Storage) (colour : Option String)
    (p q : Int × Int) : Prop :=
  adjacent p q ∧ withinBoundaries w h q.1 q.2 = true ∧ colourAt st q.1 q.2 = some colour

/-- `p` lies in the 4-connected component of `colour`-cells reachable from
`seed` (colours read on `st`; the seed itself is a member by reflexivity and
is required to be in bounds of colour `colour` wherever the claims use this). -/
def inComponent (w h : Nat) (st : Storage) (colour : Option String)
    (seed p : Int × Int) : Prop :=
  Relation.ReflTransGen (sameColourAdj w h st colour) seed p

/-- Gravity compaction of one column's colour sequence: the surviving colours
in their original bottom-to-top order, then the empty cells, contiguous at the
top. -/
def compactColumn (cs : List (Option String)) : List (Option String) :=
  cs.filter Option.isSome ++
    List.replicate (cs.length - (cs.filter Option.isSome).length) none

/-- The net effect of one inner `while` cascade started at row `q`: when row
`q` is empty and a row above exists, every cell above shifts down one row and
the topmost cell becomes empty; otherwise nothing happens. -/
def collapseAt (cs : List (Option String)) (q : Nat) : List (Option String) :=
  if q + 1 < cs.length ∧ cs.getD q (some "") = none then
    cs.take q ++ cs.drop (q + 1) ++ [none]
  else cs

/-- The net effect of the descending `yPos` pass over the rows `q-1, ..., 0`:
the bottom `q` rows are compacted and their holes are pushed into the rows
above. -/
def passEffect (cs : List (Option String)) (q : Nat) : List (Option String) :=
  (cs.take q).filter Option.isSome ++ cs.drop q ++
    List.replicate (q - ((cs.take q).filter Option.isSome).length) none

/-! ## Basic facts about the storage primitives -/

theorem withinBoundaries_iff {w h : Nat} {r c : Int} :
    withinBoundaries w h r c = true ↔ 0 ≤ r ∧ 0 ≤ c ∧ r < (w : Int) ∧ c < (h : Int) := by
  unfold withinBoundaries
  simp only [Bool.and_eq_true, decide_eq_true_eq, and_assoc]

theorem jsIndex_eq_some_iff {l : List α} {i : Int} {a : α} :
    jsIndex l i = some a ↔ ∃ (h0 : 0 ≤ i) (hl : i.toNat < l.length), l.get ⟨i.toNat, hl⟩ = a := by
  unfold jsIndex
  split
  · rename_i h0
    rw [List.getElem?_eq_some]
    constructor
    · rintro ⟨hl, hv⟩
      exact ⟨h0, hl, hv⟩
    · rintro ⟨_, hl, hv⟩
      exact ⟨hl, hv⟩
  · rename_i h0
    constructor
    · intro hc
      exact Option.noConfusion hc
    · rintro ⟨h0x, _, _⟩
      exact absurd h0x h0

theorem jsIndex_of_valid {l : List α} {i : Int} (h0 : 0 ≤ i) (hl : i.toNat < l.length) :
    jsIndex l i = some (l.get ⟨i.toNat, hl⟩) :=
  jsIndex_eq_some_iff.mpr ⟨h0, hl, rfl⟩

theorem jsIndex_isSome_iff {l : List α} {i : Int} :
    (jsIndex l i).isSome = true ↔ 0 ≤ i ∧ i.toNat < l.length := by
  rw [Option.isSome_iff_exists]
  constructor
  · rintro ⟨a, ha⟩
    obtain ⟨h0, hl, _⟩ := jsIndex_eq_some_iff.mp ha
    exact ⟨h0, hl⟩
  · rintro ⟨h0, hl⟩
    exact ⟨_, jsIndex_of_valid h0 hl⟩

theorem jsIndex_bounds {l : List α} {i : Int} {a : α} (h : jsIndex l i = some a) :
    0 ≤ i ∧ i.toNat < l.length := by
  obtain ⟨h0, hl, _⟩ := jsIndex_eq_some_iff.mp h
  exact ⟨h0, hl⟩

theorem jsIndex_eq_none_of {l : List α} {i : Int} (h : ¬ (0 ≤ i ∧ i.toNat < l.length)) :
    jsIndex l i = none := by
  rcases Option.eq_none_or_eq_some (jsIndex l i) with hn | ⟨a, ha⟩
  · exact hn
  · exact absurd (jsIndex_bounds ha) h

theorem cellAt_isSome_of_WFS {w h : Nat} {st : Storage} (hw : WFS w h st)
    {r c : Int} (hb : withinBoundaries w h r c = true) :
    ∃ b, cellAt st r c = some b := by
  obtain ⟨hr0, hc0, hrw, hch⟩ := withinBoundaries_iff.mp hb
  obtain ⟨hlen, hcols⟩ := hw
  have hrlt : r.toNat < st.length := by omega
  have hcolmem : st.get ⟨r.toNat, hrlt⟩ ∈ st := List.get_mem st r.toNat hrlt
  have hclen : (st.get ⟨r.toNat, hrlt⟩).length = h := hcols _ hcolmem
  have hclt : c.toNat < (st.get ⟨r.toNat, hrlt⟩).length := by omega
  refine ⟨(st.get ⟨r.toNat, hrlt⟩).get ⟨c.toNat, hclt⟩, ?_⟩
  unfold cellAt
  rw [jsIndex_of_valid hr0 hrlt, Option.some_bind, jsIndex_of_valid hc0 hclt]

theorem cellAt_none_of_not_bounds {w h : Nat} {st : Storage} (hw : WFS w h st)
    {r c : Int} (hb : ¬ withinBoundaries w h r c = true) :
    cellAt st r c = none := by
  obtain ⟨hlen, hcols⟩ := hw
  unfold cellAt
  rw [withinBoundaries_iff] at hb
  push_neg at hb
  by_cases hr0 : 0 ≤ r
  · by_cases hrlt : r.toNat < st.length
    · rw [jsIndex_of_valid hr0 hrlt, Option.some_bind]
      have hcolmem : st.get ⟨r.toNat, hrlt⟩ ∈ st := List.get_mem st r.toNat hrlt
      have hclen : (st.get ⟨r.toNat, hrlt⟩).length = h := hcols _ hcolmem
      have hrw : r < (w : Int) := by omega
      apply jsIndex_eq_none_of
      intro hcc
      have := hb hr0 hcc.1 hrw
      omega
    · rw [jsIndex_eq_none_of (fun hcc => hrlt hcc.2), Option.none_bind]
  · rw [jsIndex_eq_none_of (fun hcc => hr0 hcc.1), Option.none_bind]

theorem cellAt_isSome_iff_of_WFS {w h : Nat} {st : Storage} (hw : WFS w h st)
    (r c : Int) :
    (cellAt st r c).isSome = true ↔ withinBoundaries w h r c = true := by
  constructor
  · intro hs
    by_contra hb
    rw [cellAt_none_of_not_bounds hw hb] at hs
    simp at hs
  · intro hb
    obtain ⟨b, hbeq⟩ := cellAt_isSome_of_WFS hw hb
    rw [hbeq]
    rfl

/-! ## The constructor -/

theorem init_grid_eq (policy : Nat → Nat → Option String) (w h : Nat) :
    (BlockGrid.init policy w h).grid = (List.range w).map fun i =>
      (List.range h).map fun j =>
        ({ x := Int.ofNat i, y := Int.ofNat j, colour := policy i j } : Block) := rfl

theorem cellAt_init (policy : Nat → Nat → Option String) (w h : Nat) (x y : Int) :
    cellAt (BlockGrid.init policy w h).grid x y =
      if 0 ≤ x ∧ 0 ≤ y ∧ x < (w : Int) ∧ y < (h : Int) then
        some { x := x, y := y, colour := policy x.toNat y.toNat }
      else none := by
  rw [init_grid_eq]
  unfold cellAt
  by_cases hx : 0 ≤ x ∧ x < (w : Int)
  · have hxlt : x.toNat < ((List.range w).map fun i =>
        (List.range h).map fun j =>
          ({ x := Int.ofNat i, y := Int.ofNat j, colour := policy i j } : Block)).length := by
      simp only [List.length_map, List.length_range]
      omega
    rw [jsIndex_of_valid hx.1 hxlt]
    simp only [List.get_eq_getElem, List.getElem_map, List.getElem_range, Option.some_bind]
    by_cases hy : 0 ≤ y ∧ y < (h : Int)
    · have hylt : y.toNat < ((List.range h).map fun j =>
          ({ x := Int.ofNat x.toNat, y := Int.ofNat j, colour := policy x.toNat j } : Block)).length := by
        simp only [List.length_map, List.length_range]
        omega
      rw [jsIndex_of_valid hy.1 hylt]
      rw [if_pos ⟨hx.1, hy.1, hx.2, hy.2⟩]
      simp only [List.get_eq_getElem, List.getElem_map, List.getElem_range, Option.some.injEq]
      have hxx : Int.ofNat x.toNat = x := Int.toNat_of_nonneg hx.1
      have hyy : Int.ofNat y.toNat = y := Int.toNat_of_nonneg hy.1
      rw [hxx, hyy]
    · rw [jsIndex_eq_none_of (by
        intro hcc
        simp only [List.length_map, List.length_range] at hcc
        rw [not_and_or] at hy
        rcases hy with hy | hy
        · exact hy hcc.1
        · omega)]
      rw [if_neg (by
        intro hcc
        exact hy ⟨hcc.2.1, hcc.2.2.2⟩)]
  · rw [jsIndex_eq_none_of (by
      intro hcc
      simp only [List.length_map, List.length_range] at hcc
      rw [not_and_or] at hx
      rcases hx with hx | hx
      · exact hx hcc.1
      · omega), Option.none_bind]
    rw [if_neg (by
      intro hcc
      exact hx ⟨hcc.1, hcc.2.2.1⟩)]

theorem init_WF (policy : Nat → Nat → Option String) (w h : Nat) :
    (BlockGrid.init policy w h).WF := by
  unfold BlockGrid.WF WFS
  constructor
  · simp [BlockGrid.init]
  · intro col hcol
    simp only [BlockGrid.init, List.mem_map, List.mem_range] at hcol
    obtain ⟨i, _, hc⟩ := hcol
    rw [← hc]
    simp [BlockGrid.init]

/-! ## Mutation lemmas -/

theorem jsIndex_getElem {l : List α} {i : Int} {a : α} (h : jsIndex l i = some a)
    (hl : i.toNat < l.length) : l[i.toNat] = a := by
  obtain ⟨h0, hl', hv⟩ := jsIndex_eq_some_iff.mp h
  simpa [List.get_eq_getElem] using hv

theorem setCellColour_inv {st : Storage} {r c : Int} {v : Option String} {st' : Storage}
    (hset : setCellColour st r c v = some st') :
    ∃ col b, jsIndex st r = some col ∧ jsIndex col c = some b ∧
      st' = st.set r.toNat (col.set c.toNat { b with colour := v }) := by
  unfold setCellColour at hset
  split at hset
  · exact Option.noConfusion hset
  · rename_i col hcol
    split at hset
    · exact Option.noConfusion hset
    · rename_i b hb
      exact ⟨col, b, hcol, hb, (Option.some.inj hset).symm⟩

theorem setCellColour_none {st : Storage} {r c : Int} (h : cellAt st r c = none)
    (v : Option String) : setCellColour st r c v = none := by
  unfold setCellColour
  unfold cellAt at h
  cases hcol : jsIndex st r with
  | none => simp only [hcol]
  | some col =>
    rw [hcol, Option.some_bind] at h
    simp only [hcol, h]

theorem setCellColour_isSome {st : Storage} {r c : Int} {b : Block}
    (h : cellAt st r c = some b) (v : Option String) :
    ∃ st', setCellColour st r c v = some st' := by
  unfold cellAt at h
  cases hcol : jsIndex st r with
  | none =>
    rw [hcol, Option.none_bind] at h
    exact Option.noConfusion h
  | some col =>
    rw [hcol, Option.some_bind] at h
    refine ⟨st.set r.toNat (col.set c.toNat { b with colour := v }), ?_⟩
    unfold setCellColour
    simp only [hcol, h]

theorem jsIndex_set_self {l : List α} {i : Int} {b : α} (hv : jsIndex l i = some b)
    (a : α) : jsIndex (l.set i.toNat a) i = some a := by
  obtain ⟨h0, hl⟩ := jsIndex_bounds hv
  unfold jsIndex
  rw [if_pos h0]
  exact List.getElem?_set_self hl

theorem jsIndex_set_ne {l : List α} {i : Int} (hi0 : 0 ≤ i) (a : α) {j : Int}
    (hne : j ≠ i) : jsIndex (l.set i.toNat a) j = jsIndex l j := by
  unfold jsIndex
  by_cases hj0 : 0 ≤ j
  · rw [if_pos hj0, if_pos hj0]
    apply List.getElem?_set_ne
    omega
  · rw [if_neg hj0, if_neg hj0]

theorem cellAt_setCellColour_self {st : Storage} {r c : Int} {v : Option String}
    {st' : Storage} (hset : setCellColour st r c v = some st') :
    cellAt st' r c = (cellAt st r c).map fun b0 => { b0 with colour := v } := by
  obtain ⟨col, b, hcol, hb, rfl⟩ := setCellColour_inv hset
  have hcell : cellAt st r c = some b := by
    unfold cellAt
    rw [hcol, Option.some_bind, hb]
  rw [hcell]
  unfold cellAt
  rw [jsIndex_set_self hcol, Option.some_bind, jsIndex_set_self hb]
  rfl

theorem cellAt_setCellColour_other {st : Storage} {r c : Int} {v : Option String}
    {st' : Storage} (hset : setCellColour st r c v = some st') {p q : Int}
    (hpq : ¬ (p = r ∧ q = c)) : cellAt st' p q = cellAt st p q := by
  obtain ⟨col, b, hcol, hb, rfl⟩ := setCellColour_inv hset
  obtain ⟨hr0, hrl⟩ := jsIndex_bounds hcol
  obtain ⟨hc0, hcl⟩ := jsIndex_bounds hb
  unfold cellAt
  by_cases hp : p = r
  · subst hp
    rw [jsIndex_set_self hcol, Option.some_bind, hcol, Option.some_bind]
    have hq : q ≠ c := fun hq => hpq ⟨rfl, hq⟩
    exact jsIndex_set_ne hc0 _ hq
  · rw [jsIndex_set_ne hr0 _ hp]

theorem shapeOf_setCellColour {st : Storage} {r c : Int} {v : Option String}
    {st' : Storage} (hset : setCellColour st r c v = some st') :
    shapeOf st' = shapeOf st := by
  obtain ⟨col, b, hcol, hb, rfl⟩ := setCellColour_inv hset
  obtain ⟨hr0, hrl⟩ := jsIndex_bounds hcol
  obtain ⟨hc0, hcl⟩ := jsIndex_bounds hb
  have hstr : st[r.toNat] = col := jsIndex_getElem hcol hrl
  have hcolc : col[c.toNat] = b := jsIndex_getElem hb hcl
  unfold shapeOf
  apply List.ext_getElem
  · simp
  · intro n h1 h2
    simp only [List.getElem_map]
    by_cases hn : n = r.toNat
    · subst hn
      rw [List.getElem_set_self]
      apply List.ext_getElem
      · simp [← hstr]
      · intro m hm1 hm2
        simp only [List.getElem_map]
        by_cases hm : m = c.toNat
        · subst hm
          rw [List.getElem_set_self]
          simp only [hstr, hcolc]
        · rw [List.getElem_set_ne (by omega)]
          simp only [hstr]
    · rw [List.getElem_set_ne (by omega)]

theorem length_eq_of_shapeOf {st st' : Storage} (hsh : shapeOf st' = shapeOf st) :
    st'.length = st.length := by
  have := congrArg List.length hsh
  simpa [shapeOf] using this

theorem WFS_of_shapeOf {w h : Nat} {st st' : Storage} (hsh : shapeOf st' = shapeOf st)
    (hw : WFS w h st) : WFS w h st' := by
  obtain ⟨hlen, hcols⟩ := hw
  have hlen' : st'.length = st.length := length_eq_of_shapeOf hsh
  refine ⟨by omega, ?_⟩
  intro col' hcol'
  rw [List.mem_iff_getElem] at hcol'
  obtain ⟨n, hn, hget⟩ := hcol'
  have hn2 : n < st.length := by omega
  have hn1s : n < (shapeOf st').length := by simpa [shapeOf] using hn
  have hn2s : n < (shapeOf st).length := by simpa [shapeOf] using hn2
  have hcomp : (shapeOf st').get ⟨n, hn1s⟩ = (shapeOf st).get ⟨n, hn2s⟩ := by
    rw [List.get_eq_getElem, List.get_eq_getElem]
    rw [List.getElem_of_eq hsh]
  simp only [shapeOf, List.get_eq_getElem, List.getElem_map] at hcomp
  have hlcol : col'.length = (st[n]).length := by
    have := congrArg List.length hcomp
    simpa [hget] using this
  rw [hlcol]
  exact hcols _ (List.getElem_mem hn2)

/-! ## Claim C7: the constructor -/

/-- C7: for every construction with width `W`, height `H` (defaulting to
10×10 when the arguments are omitted) and any initial colour policy, the grid
has exactly `W` columns of `H` cells each, and the cell stored at position
`grid[x][y]` carries exactly the coordinates `(x, y)`; in particular a 3×5
construction yields 3 columns of length 5. -/
theorem claim_C7 (policy : Nat → Nat → Option String) (w h : Nat) (x y : Int) :
    (BlockGrid.init policy w h).width = w ∧
    (BlockGrid.init policy w h).height = h ∧
    (BlockGrid.init policy w h).grid.length = w ∧
    (BlockGrid.init policy w h).grid.map List.length = List.replicate w h ∧
    (cellAt (BlockGrid.init policy w h).grid x y =
      if 0 ≤ x ∧ 0 ≤ y ∧ x < (w : Int) ∧ y < (h : Int) then
        some { x := x, y := y, colour := policy x.toNat y.toNat }
      else none) ∧
    (BlockGrid.init policy).width = 10 ∧ (BlockGrid.init policy).height = 10 ∧
    (BlockGrid.init policy 3 5).grid.length = 3 ∧
    (BlockGrid.init policy 3 5).grid.map List.length = List.replicate 3 5 := by
  refine ⟨rfl, rfl, by simp [init_grid_eq], ?_, cellAt_init policy w h x y, rfl, rfl,
    by simp [init_grid_eq], ?_⟩
  · rw [init_grid_eq, List.map_map]
    have : (List.length ∘ fun i => (List.range h).map fun j =>
        ({ x := Int.ofNat i, y := Int.ofNat j, colour := policy i j } : Block))
        = fun _ => h := by
      funext i
      simp
    rw [this]
    rw [List.map_const', List.length_range]
  · rw [init_grid_eq, List.map_map]
    have : (List.length ∘ fun i => (List.range 5).map fun j =>
        ({ x := Int.ofNat i, y := Int.ofNat j, colour := policy i j } : Block))
        = fun _ => 5 := by
      funext i
      simp
    rw [this]
    rw [List.map_const', List.length_range]

/-! ## Claim C4: out-of-bounds accessors fail -/

/-- C4: for a well-formed grid and a coordinate with `x` outside `[0, width)`
or `y` outside `[0, height)`, the direct colour-reading accessor
(`checkBlockColour`, the source's colour read `grid[row][column].colour === colour`)
and the colour-overwriting accessor (`removeBlock`) fail — the JS member
access on missing storage throws, modelled by `none` — rather than returning
a value or succeeding. -/
theorem claim_C4 {w h : Nat} {st : Storage} (hw : WFS w h st) {r c : Int}
    (hb : ¬ withinBoundaries w h r c = true) (colour : Option String) :
    checkBlockColour st r c colour = none ∧ removeBlock st r c = none := by
  have hcell := cellAt_none_of_not_bounds hw hb
  constructor
  · unfold checkBlockColour
    rw [hcell]
    rfl
  · unfold removeBlock
    exact setCellColour_none hcell none

theorem claim_C4_witness :
    checkBlockColour [[{ x := 0, y := 0, colour := some "red" }]] 5 0 (some "red") = none ∧
    removeBlock [[{ x := 0, y := 0, colour := some "red" }]] 5 0 = none :=
  claim_C4 (w := 1) (h := 1) (by exact ⟨rfl, by decide⟩) (by decide) (some "red")

/-! ## Claims C3, C9, C10: no-op selections -/

/-- C3: selecting an in-bounds cell that holds the empty marker (`null`
colour) leaves the grid unchanged (the very same grid value is returned),
produces an empty removed-list, and does not signal an error (the result is
`some`, not the error value `none`). -/
theorem claim_C3 {g : BlockGrid} (hw : g.WF) {x y : Int}
    (hb : withinBoundaries g.width g.height x y = true)
    (hempty : colourAt g.grid x y = some none) :
    g.blockClicked x y = some (g, []) := by
  obtain ⟨b, hcell⟩ := cellAt_isSome_of_WFS hw hb
  have hbc : b.colour = none := by
    unfold colourAt at hempty
    rw [hcell] at hempty
    simpa using hempty
  unfold BlockGrid.blockClicked
  simp only [hcell, hbc, Option.isSome_none, Bool.false_eq_true, if_false]

theorem claim_C3_witness :
    BlockGrid.blockClicked ⟨1, 1, [[{ x := 0, y := 0, colour := none }]]⟩ 0 0
      = some (⟨1, 1, [[{ x := 0, y := 0, colour := none }]]⟩, []) :=
  claim_C3 (by exact ⟨rfl, by decide⟩) (by decide) rfl

/-- C9: a no-op resolution is idempotent — if a first `blockClicked` at
`(x, y)` produced a grid whose cell at `(x, y)` holds the empty marker, a
second `blockClicked` at the same coordinate returns that grid unchanged with
an empty removed-list. -/
theorem claim_C9 {g g1 : BlockGrid} {x y : Int} {removed : List (Int × Int)}
    (hfirst : g.blockClicked x y = some (g1, removed))
    (hempty : colourAt g1.grid x y = some none) :
    g1.blockClicked x y = some (g1, []) := by
  unfold colourAt at hempty
  cases hcell : cellAt g1.grid x y with
  | none =>
    rw [hcell] at hempty
    exact Option.noConfusion hempty
  | some b =>
    rw [hcell] at hempty
    have hbc : b.colour = none := by simpa using hempty
    unfold BlockGrid.blockClicked
    simp only [hcell, hbc, Option.isSome_none, Bool.false_eq_true, if_false]

theorem claim_C9_witness :
    BlockGrid.blockClicked ⟨1, 1, [[{ x := 0, y := 0, colour := none }]]⟩ 0 0
      = some (⟨1, 1, [[{ x := 0, y := 0, colour := none }]]⟩, []) ∧
    BlockGrid.blockClicked ⟨1, 1, [[{ x := 0, y := 0, colour := none }]]⟩ 0 0
      = some (⟨1, 1, [[{ x := 0, y := 0, colour := none }]]⟩, []) :=
  ⟨rfl, claim_C9 (g := ⟨1, 1, [[{ x := 0, y := 0, colour := none }]]⟩) rfl rfl⟩

theorem removeLoop_nil (w h : Nat) (colour : Option String) (st : Storage)
    (parsed : Finset (Int × Int)) (removed : List (Int × Int)) :
    removeLoop w h colour st [] parsed removed = some (st, removed) := by
  rw [removeLoop.eq_def]

/-- C10: calling `removeConnectedBlocks` directly with an out-of-bounds seed
coordinate terminates immediately: the bounds filter applied on pop discards
the seed itself, so the grid is returned unchanged with an empty
removed-list, for any colour argument. -/
theorem claim_C10 (g : BlockGrid) {x y : Int}
    (hb : ¬ withinBoundaries g.width g.height x y = true) (colour : Option String) :
    g.removeConnectedBlocks x y colour = some (g, []) := by
  unfold BlockGrid.removeConnectedBlocks
  have hcond : ¬ (withinBoundaries g.width g.height x y = true ∧
      (x, y) ∉ (∅ : Finset (Int × Int))) := fun hc => hb hc.1
  rw [removeLoop.eq_def]
  simp only [dif_neg hcond]
  rw [removeLoop_nil]
  rfl

theorem claim_C10_witness :
    BlockGrid.removeConnectedBlocks ⟨1, 1, [[{ x := 0, y := 0, colour := some "red" }]]⟩
      (-1) 0 (some "red")
      = some (⟨1, 1, [[{ x := 0, y := 0, colour := some "red" }]]⟩, []) :=
  claim_C10 _ (by decide) (some "red")

/-! ## Claim C5: termination and cost of the traversal -/

theorem mem_boundsFinset_iff {w h : Nat} {p : Int × Int} :
    p ∈ boundsFinset w h ↔ withinBoundaries w h p.1 p.2 = true := by
  obtain ⟨u, v⟩ := p
  rw [withinBoundaries_iff]
  simp only [boundsFinset, Finset.mem_image, Finset.mem_product, Finset.mem_range,
    Prod.exists]
  constructor
  · rintro ⟨a, b, ⟨ha, hb⟩, heq⟩
    simp only [Prod.mk.injEq] at heq
    obtain ⟨h1, h2⟩ := heq
    refine ⟨?_, ?_, ?_, ?_⟩ <;> omega
  · rintro ⟨h1, h2, h3, h4⟩
    refine ⟨u.toNat, v.toNat, ⟨by omega, by omega⟩, ?_⟩
    simp only [Prod.mk.injEq]
    omega

theorem boundsFinset_card_le (w h : Nat) : (boundsFinset w h).card ≤ w * h := by
  calc (boundsFinset w h).card
      ≤ ((Finset.range w ×ˢ Finset.range h).card) := Finset.card_image_le
    _ = w * h := by rw [Finset.card_product, Finset.card_range, Finset.card_range]

theorem parsed_insert_card {w h : Nat} {parsed : Finset (Int × Int)} {p : Int × Int}
    (hmem : p ∈ boundsFinset w h) (hnot : p ∉ parsed) :
    (insert p parsed ∩ boundsFinset w h).card
      = (parsed ∩ boundsFinset w h).card + 1 ∧
    (insert p parsed ∩ boundsFinset w h).card ≤ w * h := by
  have hins : insert p parsed ∩ boundsFinset w h
      = insert p (parsed ∩ boundsFinset w h) := Finset.insert_inter_of_mem hmem
  have hnotmem : p ∉ parsed ∩ boundsFinset w h := fun hc =>
    hnot (Finset.mem_inter.mp hc).1
  constructor
  · rw [hins, Finset.card_insert_of_not_mem hnotmem]
  · calc (insert p parsed ∩ boundsFinset w h).card
        ≤ (boundsFinset w h).card := Finset.card_le_card Finset.inter_subset_right
      _ ≤ w * h := boundsFinset_card_le w h

theorem removeLoopSteps_bound (w h : Nat) (colour : Option String) :
    ∀ (st : Storage) (stack : List (Int × Int)) (parsed : Finset (Int × Int)),
    (removeLoopSteps w h colour st stack parsed).1
        ≤ stack.length + 5 * (w * h - (parsed ∩ boundsFinset w h).card) ∧
    (removeLoopSteps w h colour st stack parsed).2.Nodup ∧
    (∀ p ∈ (removeLoopSteps w h colour st stack parsed).2,
      p ∉ parsed ∧ withinBoundaries w h p.1 p.2 = true) := by
  intro st stack parsed
  induction st, stack, parsed using removeLoopSteps.induct w h colour with
  | case1 st parsed =>
    rw [removeLoopSteps.eq_def]
    exact ⟨Nat.zero_le _, List.nodup_nil, by intro p hp; exact absurd hp (List.not_mem_nil p)⟩
  | case2 st parsed row column rest hg hcheck =>
    rw [removeLoopSteps.eq_def]
    simp only [dif_pos hg, hcheck]
    refine ⟨by change 1 ≤ _; simp only [List.length_cons]; omega, by simp, ?_⟩
    intro p hp
    simp only [List.mem_singleton] at hp
    subst hp
    exact ⟨hg.2, hg.1⟩
  | case3 st parsed row column rest hg hrem hcheck =>
    rw [removeLoopSteps.eq_def]
    simp only [dif_pos hg, hcheck, if_pos, hrem]
    refine ⟨by change 1 ≤ _; simp only [List.length_cons]; omega, by simp, ?_⟩
    intro p hp
    simp only [List.mem_singleton] at hp
    subst hp
    exact ⟨hg.2, hg.1⟩
  | case4 st parsed row column rest hg st' hrem hcheck ih =>
    obtain ⟨ihsteps, ihnodup, ihmem⟩ := ih
    have hb : (row, column) ∈ boundsFinset w h := mem_boundsFinset_iff.mpr hg.1
    obtain ⟨hcard, hle⟩ := parsed_insert_card hb hg.2
    rw [removeLoopSteps.eq_def]
    simp only [dif_pos hg, hcheck, if_pos, hrem]
    refine ⟨?_, ?_, ?_⟩
    · change (removeLoopSteps w h colour st' _ _).1 + 1 ≤ _
      rw [hcard] at ihsteps
      simp only [List.length_cons] at ihsteps
      simp only [List.length_cons]
      omega
    · refine List.nodup_cons.mpr ⟨?_, ihnodup⟩
      intro hc
      have := (ihmem _ hc).1
      exact this (Finset.mem_insert_self _ _)
    · intro p hp
      rcases List.mem_cons.mp hp with hp | hp
      · subst hp
        exact ⟨hg.2, hg.1⟩
      · obtain ⟨hnp, hbp⟩ := ihmem _ hp
        exact ⟨fun hc => hnp (Finset.mem_insert_of_mem hc), hbp⟩
  | case5 st parsed row column rest hg b hcheck hfalse ih =>
    obtain ⟨ihsteps, ihnodup, ihmem⟩ := ih
    have hbb : b = false := by
      cases b
      · rfl
      · exact absurd rfl hfalse
    subst hbb
    have hb : (row, column) ∈ boundsFinset w h := mem_boundsFinset_iff.mpr hg.1
    obtain ⟨hcard, hle⟩ := parsed_insert_card hb hg.2
    rw [removeLoopSteps.eq_def]
    simp only [dif_pos hg, hcheck, Bool.false_eq_true, if_false]
    refine ⟨?_, ?_, ?_⟩
    · change (removeLoopSteps w h colour st rest _).1 + 1 ≤ _
      rw [hcard] at ihsteps
      simp only [List.length_cons]
      omega
    · refine List.nodup_cons.mpr ⟨?_, ihnodup⟩
      intro hc
      have := (ihmem _ hc).1
      exact this (Finset.mem_insert_self _ _)
    · intro p hp
      rcases List.mem_cons.mp hp with hp | hp
      · subst hp
        exact ⟨hg.2, hg.1⟩
      · obtain ⟨hnp, hbp⟩ := ihmem _ hp
        exact ⟨fun hc => hnp (Finset.mem_insert_of_mem hc), hbp⟩
  | case6 st parsed row column rest hg ih =>
    obtain ⟨ihsteps, ihnodup, ihmem⟩ := ih
    rw [removeLoopSteps.eq_def]
    simp only [dif_neg hg]
    refine ⟨?_, ihnodup, ihmem⟩
    change (removeLoopSteps w h colour st rest parsed).1 + 1 ≤ _
    simp only [List.length_cons]
    omega

/-- C5: the iterative traversal terminates (it is a total function whose
iteration count is finite and bounded), marks each coordinate visited at most
once no matter how often it is pushed (the visit log has no duplicates), and
performs at most `W*H` visit steps and `1 + 5*W*H` loop iterations in total —
`O(W×H)` work.  `removeLoopSteps` is the traversal loop of
`removeConnectedBlocks` instrumented with an iteration counter and a visit
log, started on the seed stack `[(x, y)]` and an empty visited set. -/
theorem claim_C5 (w h : Nat) (colour : Option String) (st : Storage) (x y : Int) :
    (removeLoopSteps w h colour st [(x, y)] ∅).1 ≤ 1 + 5 * (w * h) ∧
    (removeLoopSteps w h colour st [(x, y)] ∅).2.Nodup ∧
    (removeLoopSteps w h colour st [(x, y)] ∅).2.length ≤ w * h := by
  obtain ⟨hsteps, hnodup, hmem⟩ := removeLoopSteps_bound w h colour st [(x, y)] ∅
  refine ⟨?_, hnodup, ?_⟩
  · simp only [Finset.empty_inter, Finset.card_empty, Nat.sub_zero,
      List.length_cons, List.length_nil] at hsteps
    omega
  · have hsub : (removeLoopSteps w h colour st [(x, y)] ∅).2.toFinset
        ⊆ boundsFinset w h := by
      intro p hp
      rw [List.mem_toFinset] at hp
      exact mem_boundsFinset_iff.mpr (hmem p hp).2
    have hcard := Finset.card_le_card hsub
    rw [List.toFinset_card_of_nodup hnodup] at hcard
    calc (removeLoopSteps w h colour st [(x, y)] ∅).2.length
        ≤ (boundsFinset w h).card := hcard
      _ ≤ w * h := boundsFinset_card_le w h

/-! ## The traversal invariant (claim C1) -/

theorem checkBlockColour_some_true {st : Storage} {r c : Int} {colour : Option String}
    (h : checkBlockColour st r c colour = some true) :
    ∃ b, cellAt st r c = some b ∧ b.colour = colour := by
  unfold checkBlockColour at h
  cases hcell : cellAt st r c with
  | none =>
    rw [hcell] at h
    exact Option.noConfusion h
  | some b =>
    rw [hcell, Option.map_some'] at h
    refine ⟨b, rfl, ?_⟩
    have := Option.some.inj h
    exact beq_iff_eq.mp this

theorem checkBlockColour_some_false {st : Storage} {r c : Int} {colour : Option String}
    (h : checkBlockColour st r c colour = some false) :
    ∃ b, cellAt st r c = some b ∧ b.colour ≠ colour := by
  unfold checkBlockColour at h
  cases hcell : cellAt st r c with
  | none =>
    rw [hcell] at h
    exact Option.noConfusion h
  | some b =>
    rw [hcell, Option.map_some'] at h
    refine ⟨b, rfl, ?_⟩
    have := Option.some.inj h
    exact beq_eq_false_iff_ne.mp this

theorem removeLoop_master (w h : Nat) (colour : Option String) (st0 : Storage)
    (seed : Int × Int) (hwf0 : WFS w h st0)
    (hseedb : withinBoundaries w h seed.1 seed.2 = true) :
    ∀ (st : Storage) (stack : List (Int × Int)) (parsed : Finset (Int × Int))
      (removed : List (Int × Int)),
    WFS w h st →
    (∀ p : Int × Int, p ∉ removed → cellAt st p.1 p.2 = cellAt st0 p.1 p.2) →
    (∀ p ∈ removed, cellAt st p.1 p.2
        = (cellAt st0 p.1 p.2).map fun b => { b with colour := none }) →
    (∀ p ∈ removed, withinBoundaries w h p.1 p.2 = true ∧
        colourAt st0 p.1 p.2 = some colour) →
    (∀ p ∈ removed, p ∈ parsed) →
    (∀ p ∈ parsed, p ∉ removed → colourAt st0 p.1 p.2 ≠ some colour) →
    (∀ p ∈ stack, p = seed ∨ ∃ q ∈ removed, adjacent q p) →
    (∀ p ∈ removed, inComponent w h st0 colour seed p) →
    (∀ q ∈ removed, ∀ p : Int × Int, adjacent q p →
        withinBoundaries w h p.1 p.2 = true → p ∈ parsed ∨ p ∈ stack) →
    (seed ∈ stack ∨ seed ∈ parsed) →
    ∃ (st' : Storage) (removed' : List (Int × Int)) (parsed' : Finset (Int × Int)),
      removeLoop w h colour st stack parsed removed = some (st', removed') ∧
      WFS w h st' ∧
      (∀ p : Int × Int, p ∉ removed' → cellAt st' p.1 p.2 = cellAt st0 p.1 p.2) ∧
      (∀ p ∈ removed', cellAt st' p.1 p.2
          = (cellAt st0 p.1 p.2).map fun b => { b with colour := none }) ∧
      (∀ p ∈ removed', withinBoundaries w h p.1 p.2 = true ∧
          colourAt st0 p.1 p.2 = some colour) ∧
      (∀ p ∈ removed', p ∈ parsed') ∧
      (∀ p ∈ parsed', p ∉ removed' → colourAt st0 p.1 p.2 ≠ some colour) ∧
      (∀ p ∈ removed', inComponent w h st0 colour seed p) ∧
      (∀ q ∈ removed', ∀ p : Int × Int, adjacent q p →
          withinBoundaries w h p.1 p.2 = true → p ∈ parsed') ∧
      seed ∈ parsed' ∧
      (∀ p ∈ removed, p ∈ removed') := by
  intro st stack parsed removed
  induction st, stack, parsed, removed using removeLoop.induct w h colour with
  | case1 st parsed removed =>
    intro hwfs hunch hrem hremc hrempar hparne hstack hreach hfront hseed
    refine ⟨st, removed, parsed, removeLoop_nil w h colour st parsed removed,
      hwfs, hunch, hrem, hremc, hrempar, hparne, hreach, ?_, ?_, fun p hp => hp⟩
    · intro q hq p hadj hpb
      rcases hfront q hq p hadj hpb with hp | hp
      · exact hp
      · exact absurd hp (List.not_mem_nil p)
    · rcases hseed with hs | hs
      · exact absurd hs (List.not_mem_nil seed)
      · exact hs
  | case2 st parsed removed row column rest hg hcheck =>
    intro hwfs hunch hrem hremc hrempar hparne hstack hreach hfront hseed
    obtain ⟨b, hcell⟩ := cellAt_isSome_of_WFS hwfs hg.1
    unfold checkBlockColour at hcheck
    rw [hcell] at hcheck
    exact Option.noConfusion hcheck
  | case3 st parsed removed row column rest hg hrem0 hcheck =>
    intro hwfs hunch hrem hremc hrempar hparne hstack hreach hfront hseed
    obtain ⟨b, hcell⟩ := cellAt_isSome_of_WFS hwfs hg.1
    obtain ⟨stx, hstx⟩ := setCellColour_isSome hcell none
    unfold removeBlock at hrem0
    rw [hstx] at hrem0
    exact Option.noConfusion hrem0
  | case4 st parsed removed row column rest hg stNew hremEq hcheck ih =>
    intro hwfs hunch hrem hremc hrempar hparne hstack hreach hfront hseed
    obtain ⟨bb, hcellst, hbbcol⟩ := checkBlockColour_some_true hcheck
    have hnotrem : (row, column) ∉ removed := fun hc => hg.2 (hrempar _ hc)
    have hcell0 : cellAt st0 row column = some bb := by
      rw [← hunch (row, column) hnotrem]
      exact hcellst
    have hcol0 : colourAt st0 row column = some colour := by
      unfold colourAt
      rw [hcell0, Option.map_some', hbbcol]
    have hsets : setCellColour st row column none = some stNew := hremEq
    have hwfsNew : WFS w h stNew := WFS_of_shapeOf (shapeOf_setCellColour hsets) hwfs
    have hcurcomp : inComponent w h st0 colour seed (row, column) := by
      rcases hstack (row, column) (List.mem_cons_self _ _) with hs | ⟨q, hq, hadj⟩
      · rw [← hs]
        exact Relation.ReflTransGen.refl
      · exact Relation.ReflTransGen.tail (hreach q hq) ⟨hadj, hg.1, hcol0⟩
    -- discharge the invariant for the recursive state
    have hstep := ih hwfsNew
      (by
        intro p hp
        simp only [List.mem_append, List.mem_singleton, not_or] at hp
        obtain ⟨hpold, hpne⟩ := hp
        rw [cellAt_setCellColour_other hsets (by
          intro hc
          exact hpne (Prod.ext_iff.mpr ⟨hc.1, hc.2⟩))]
        exact hunch p hpold)
      (by
        intro p hp
        rcases List.mem_append.mp hp with hpold | hpnew
        · have hpne : ¬ (p.1 = row ∧ p.2 = column) := by
            intro hc
            have hpeq : p = (row, column) := Prod.ext_iff.mpr ⟨hc.1, hc.2⟩
            exact hnotrem (hpeq ▸ hpold)
          rw [cellAt_setCellColour_other hsets hpne]
          exact hrem p hpold
        · rw [List.mem_singleton] at hpnew
          subst hpnew
          rw [cellAt_setCellColour_self hsets]
          rw [hcellst, hcell0])
      (by
        intro p hp
        rcases List.mem_append.mp hp with hpold | hpnew
        · exact hremc p hpold
        · rw [List.mem_singleton] at hpnew
          subst hpnew
          exact ⟨hg.1, hcol0⟩)
      (by
        intro p hp
        rcases List.mem_append.mp hp with hpold | hpnew
        · exact Finset.mem_insert_of_mem (hrempar p hpold)
        · rw [List.mem_singleton] at hpnew
          subst hpnew
          exact Finset.mem_insert_self _ _)
      (by
        intro p hp hpnot
        rcases Finset.mem_insert.mp hp with hpcur | hpold
        · exfalso
          apply hpnot
          rw [hpcur]
          exact List.mem_append.mpr (Or.inr (List.mem_singleton.mpr rfl))
        · exact hparne p hpold fun hc =>
            hpnot (List.mem_append.mpr (Or.inl hc)))
      (by
        intro p hp
        have hmemcur : (row, column) ∈ removed ++ [(row, column)] :=
          List.mem_append.mpr (Or.inr (List.mem_singleton.mpr rfl))
        rcases List.mem_cons.mp hp with h1 | hp
        · exact Or.inr ⟨(row, column), hmemcur, by
            rw [h1]
            exact Or.inr (Or.inr (Or.inr rfl))⟩
        rcases List.mem_cons.mp hp with h1 | hp
        · exact Or.inr ⟨(row, column), hmemcur, by
            rw [h1]
            exact Or.inr (Or.inr (Or.inl rfl))⟩
        rcases List.mem_cons.mp hp with h1 | hp
        · exact Or.inr ⟨(row, column), hmemcur, by
            rw [h1]
            exact Or.inr (Or.inl rfl)⟩
        rcases List.mem_cons.mp hp with h1 | hp
        · exact Or.inr ⟨(row, column), hmemcur, by
            rw [h1]
            exact Or.inl rfl⟩
        rcases hstack p (List.mem_cons_of_mem _ hp) with hs | ⟨q, hq, hadj⟩
        · exact Or.inl hs
        · exact Or.inr ⟨q, List.mem_append.mpr (Or.inl hq), hadj⟩)
      (by
        intro p hp
        rcases List.mem_append.mp hp with hpold | hpnew
        · exact hreach p hpold
        · rw [List.mem_singleton] at hpnew
          subst hpnew
          exact hcurcomp)
      (by
        intro q hq p hadj hpb
        rcases List.mem_append.mp hq with hqold | hqnew
        · rcases hfront q hqold p hadj hpb with hpp | hpp
          · exact Or.inl (Finset.mem_insert_of_mem hpp)
          · rcases List.mem_cons.mp hpp with h1 | h1
            · exact Or.inl (h1 ▸ Finset.mem_insert_self _ _)
            · exact Or.inr (by
                simp only [List.mem_cons]
                exact Or.inr (Or.inr (Or.inr (Or.inr h1))))
        · rw [List.mem_singleton] at hqnew
          subst hqnew
          rcases hadj with h1 | h1 | h1 | h1
          · exact Or.inr (by
              simp only [List.mem_cons]
              exact Or.inr (Or.inr (Or.inr (Or.inl h1))))
          · exact Or.inr (by
              simp only [List.mem_cons]
              exact Or.inr (Or.inr (Or.inl h1)))
          · exact Or.inr (by
              simp only [List.mem_cons]
              exact Or.inr (Or.inl h1))
          · exact Or.inr (by
              simp only [List.mem_cons]
              exact Or.inl h1))
      (by
        rcases hseed with hs | hs
        · rcases List.mem_cons.mp hs with h1 | h1
          · exact Or.inr (h1 ▸ Finset.mem_insert_self _ _)
          · exact Or.inl (by
              simp only [List.mem_cons]
              exact Or.inr (Or.inr (Or.inr (Or.inr h1))))
        · exact Or.inr (Finset.mem_insert_of_mem hs))
    obtain ⟨st', removed', parsed', hloop, hrest⟩ := hstep
    refine ⟨st', removed', parsed', ?_, hrest.1, hrest.2.1, hrest.2.2.1, hrest.2.2.2.1,
      hrest.2.2.2.2.1, hrest.2.2.2.2.2.1, hrest.2.2.2.2.2.2.1,
      hrest.2.2.2.2.2.2.2.1, hrest.2.2.2.2.2.2.2.2.1, ?_⟩
    · rw [removeLoop.eq_def]
      simp only [dif_pos hg, hcheck, if_pos, hremEq]
      exact hloop
    · intro p hp
      exact hrest.2.2.2.2.2.2.2.2.2 p (List.mem_append.mpr (Or.inl hp))
  | case5 st parsed removed row column rest hg b hcheck hfalse ih =>
    intro hwfs hunch hrem hremc hrempar hparne hstack hreach hfront hseed
    have hbb : b = false := by
      cases b
      · rfl
      · exact absurd rfl hfalse
    subst hbb
    obtain ⟨bb, hcellst, hbbne⟩ := checkBlockColour_some_false hcheck
    have hnotrem : (row, column) ∉ removed := fun hc => hg.2 (hrempar _ hc)
    have hcell0 : cellAt st0 row column = some bb := by
      rw [← hunch (row, column) hnotrem]
      exact hcellst
    have hcol0ne : colourAt st0 row column ≠ some colour := by
      unfold colourAt
      rw [hcell0, Option.map_some']
      intro hc
      exact hbbne (Option.some.inj hc)
    have hstep := ih hwfs hunch hrem hremc
      (fun p hp => Finset.mem_insert_of_mem (hrempar p hp))
      (by
        intro p hp hpnot
        rcases Finset.mem_insert.mp hp with hpcur | hpold
        · rw [hpcur]
          exact hcol0ne
        · exact hparne p hpold hpnot)
      (fun p hp => hstack p (List.mem_cons_of_mem _ hp))
      hreach
      (by
        intro q hq p hadj hpb
        rcases hfront q hq p hadj hpb with hpp | hpp
        · exact Or.inl (Finset.mem_insert_of_mem hpp)
        · rcases List.mem_cons.mp hpp with h1 | h1
          · exact Or.inl (h1 ▸ Finset.mem_insert_self _ _)
          · exact Or.inr h1)
      (by
        rcases hseed with hs | hs
        · rcases List.mem_cons.mp hs with h1 | h1
          · exact Or.inr (h1 ▸ Finset.mem_insert_self _ _)
          · exact Or.inl h1
        · exact Or.inr (Finset.mem_insert_of_mem hs))
    obtain ⟨st', removed', parsed', hloop, hrest⟩ := hstep
    refine ⟨st', removed', parsed', ?_, hrest.1, hrest.2.1, hrest.2.2.1, hrest.2.2.2.1,
      hrest.2.2.2.2.1, hrest.2.2.2.2.2.1, hrest.2.2.2.2.2.2.1,
      hrest.2.2.2.2.2.2.2.1, hrest.2.2.2.2.2.2.2.2.1, hrest.2.2.2.2.2.2.2.2.2⟩
    rw [removeLoop.eq_def]
    simp only [dif_pos hg, hcheck, Bool.false_eq_true, if_false]
    exact hloop
  | case6 st parsed removed row column rest hg ih =>
    intro hwfs hunch hrem hremc hrempar hparne hstack hreach hfront hseed
    have hstep := ih hwfs hunch hrem hremc hrempar hparne
      (fun p hp => hstack p (List.mem_cons_of_mem _ hp))
      hreach
      (by
        intro q hq p hadj hpb
        rcases hfront q hq p hadj hpb with hpp | hpp
        · exact Or.inl hpp
        · rcases List.mem_cons.mp hpp with h1 | h1
          · left
            rw [h1]
            by_contra hnp
            have hpb2 : withinBoundaries w h row column = true := by
              rw [h1] at hpb
              exact hpb
            exact hg ⟨hpb2, hnp⟩
          · exact Or.inr h1)
      (by
        rcases hseed with hs | hs
        · rcases List.mem_cons.mp hs with h1 | h1
          · right
            by_contra hnp
            rw [h1] at hnp
            have hpb2 : withinBoundaries w h row column = true := by
              rw [h1] at hseedb
              exact hseedb
            exact hg ⟨hpb2, hnp⟩
          · exact Or.inl h1
        · exact Or.inr hs)
    obtain ⟨st', removed', parsed', hloop, hrest⟩ := hstep
    refine ⟨st', removed', parsed', ?_, hrest.1, hrest.2.1, hrest.2.2.1, hrest.2.2.2.1,
      hrest.2.2.2.2.1, hrest.2.2.2.2.2.1, hrest.2.2.2.2.2.2.1,
      hrest.2.2.2.2.2.2.2.1, hrest.2.2.2.2.2.2.2.2.1, hrest.2.2.2.2.2.2.2.2.2⟩
    rw [removeLoop.eq_def]
    simp only [dif_neg hg]
    exact hloop

/-- C1: selecting an in-bounds cell holding a non-empty colour `c` makes
`removeConnectedBlocks` succeed, and (i) the removed-list is exactly the
4-connected component of colour-`c` cells containing the seed, (ii) every
removed cell had colour `c` before the call, (iii) every component cell ends
with the empty marker, and (iv) every cell outside the component is untouched
by the removal phase. -/
theorem claim_C1 {g : BlockGrid} (hw : g.WF) {x y : Int} {c : String}
    (hb : withinBoundaries g.width g.height x y = true)
    (hcol : colourAt g.grid x y = some (some c)) :
    ∃ (g' : BlockGrid) (removed : List (Int × Int)),
      g.removeConnectedBlocks x y (some c) = some (g', removed) ∧
      g'.width = g.width ∧ g'.height = g.height ∧
      (∀ p : Int × Int, p ∈ removed ↔
        inComponent g.width g.height g.grid (some c) (x, y) p) ∧
      (∀ p ∈ removed, colourAt g.grid p.1 p.2 = some (some c)) ∧
      (∀ p : Int × Int, inComponent g.width g.height g.grid (some c) (x, y) p →
        colourAt g'.grid p.1 p.2 = some none) ∧
      (∀ p : Int × Int, ¬ inComponent g.width g.height g.grid (some c) (x, y) p →
        cellAt g'.grid p.1 p.2 = cellAt g.grid p.1 p.2) := by
  have hmaster := removeLoop_master g.width g.height (some c) g.grid (x, y) hw hb
    g.grid [(x, y)] ∅ [] hw
    (fun p _ => rfl)
    (fun p hp => absurd hp (List.not_mem_nil p))
    (fun p hp => absurd hp (List.not_mem_nil p))
    (fun p hp => absurd hp (List.not_mem_nil p))
    (fun p hp _ => absurd hp (Finset.not_mem_empty p))
    (fun p hp => Or.inl (List.mem_singleton.mp hp))
    (fun p hp => absurd hp (List.not_mem_nil p))
    (fun q hq => absurd hq (List.not_mem_nil q))
    (Or.inl (List.mem_singleton.mpr rfl))
  obtain ⟨st', removed', parsed', hloop, hwfs', hunch, hrem, hremc, hrempar, hparne,
    hreach, hfront, hseedp, _⟩ := hmaster
  have hcomp2rem : ∀ p : Int × Int,
      inComponent g.width g.height g.grid (some c) (x, y) p → p ∈ removed' := by
    intro p hp
    unfold inComponent at hp
    induction hp with
    | refl =>
      by_contra hnp
      exact hparne (x, y) hseedp hnp hcol
    | tail hab hbc ih =>
      obtain ⟨hadj, hbnd, hcolb⟩ := hbc
      have hinp := hfront _ ih _ hadj hbnd
      by_contra hnp
      exact hparne _ hinp hnp hcolb
  refine ⟨{ g with grid := st' }, removed', ?_, rfl, rfl, ?_, ?_, ?_, ?_⟩
  · unfold BlockGrid.removeConnectedBlocks
    rw [hloop]
    rfl
  · intro p
    exact ⟨fun hp => hreach p hp, fun hp => hcomp2rem p hp⟩
  · intro p hp
    exact (hremc p hp).2
  · intro p hp
    have hpr := hcomp2rem p hp
    have hcellp := hrem p hpr
    obtain ⟨hbnd, hc0⟩ := hremc p hpr
    obtain ⟨b, hcell⟩ := cellAt_isSome_of_WFS hw hbnd
    unfold colourAt
    rw [hcellp, hcell]
    rfl
  · intro p hp
    have hnp : p ∉ removed' := fun hc => hp (hreach p hc)
    exact hunch p hnp

theorem claim_C1_witness :
    ∃ (g' : BlockGrid) (removed : List (Int × Int)),
      BlockGrid.removeConnectedBlocks
          ⟨2, 1, [[{ x := 0, y := 0, colour := some "red" }],
                  [{ x := 1, y := 0, colour := some "blue" }]]⟩ 0 0 (some "red")
        = some (g', removed) ∧
      g'.width = 2 ∧ g'.height = 1 ∧
      (∀ p : Int × Int, p ∈ removed ↔
        inComponent 2 1 [[{ x := 0, y := 0, colour := some "red" }],
          [{ x := 1, y := 0, colour := some "blue" }]] (some "red") (0, 0) p) ∧
      (∀ p ∈ removed, colourAt [[{ x := 0, y := 0, colour := some "red" }],
          [{ x := 1, y := 0, colour := some "blue" }]] p.1 p.2 = some (some "red")) ∧
      (∀ p : Int × Int, inComponent 2 1 [[{ x := 0, y := 0, colour := some "red" }],
          [{ x := 1, y := 0, colour := some "blue" }]] (some "red") (0, 0) p →
        colourAt g'.grid p.1 p.2 = some none) ∧
      (∀ p : Int × Int, ¬ inComponent 2 1 [[{ x := 0, y := 0, colour := some "red" }],
          [{ x := 1, y := 0, colour := some "blue" }]] (some "red") (0, 0) p →
        cellAt g'.grid p.1 p.2 = cellAt [[{ x := 0, y := 0, colour := some "red" }],
          [{ x := 1, y := 0, colour := some "blue" }]] p.1 p.2) :=
  claim_C1 (by exact ⟨rfl, by decide⟩) (by decide) rfl

/-! ## Column compaction (claim C2) -/

theorem listSetSelf {l : List α} {n : Nat} (hn : n < l.length) : l.set n l[n] = l := by
  apply List.ext_getElem
  · simp
  · intro i h1 h2
    by_cases hi : i = n
    · subst hi
      rw [List.getElem_set_self]
    · rw [List.getElem_set_ne (by omega)]

theorem moveBlockDown_spec {st : Storage} {x : Int} {col : List Block}
    (hcol : jsIndex st x = some col) (q : Nat) (hq1 : q + 1 < col.length) :
    ∃ (st2 : Storage) (col2 : List Block),
      moveBlockDown st x (q : Int) = some st2 ∧
      st2.length = st.length ∧
      (∀ i : Int, i ≠ x → jsIndex st2 i = jsIndex st i) ∧
      jsIndex st2 x = some col2 ∧
      col2.length = col.length ∧
      (col2.map fun b => (b.x, b.y)) = (col.map fun b => (b.x, b.y)) ∧
      col2.map Block.colour =
        ((col.map Block.colour).set q ((col.map Block.colour).getD (q + 1) none)).set
          (q + 1) none := by
  have hx0 : 0 ≤ x := (jsIndex_bounds hcol).1
  have hq0 : (0 : Int) ≤ (q : Int) := Int.ofNat_nonneg q
  have hq10 : (0 : Int) ≤ (q : Int) + 1 := by omega
  have hqn : ((q : Int)).toNat = q := rfl
  have hq1n : ((q : Int) + 1).toNat = q + 1 := by omega
  have hq : q < col.length := by omega
  have hcq : jsIndex col (q : Int) = some col[q] := by
    unfold jsIndex
    rw [if_pos hq0, hqn, List.getElem?_eq_getElem hq]
  have hcq1 : jsIndex col ((q : Int) + 1) = some col[q + 1] := by
    unfold jsIndex
    rw [if_pos hq10, hq1n, List.getElem?_eq_getElem hq1]
  have hcolAt : colourAt st x ((q : Int) + 1) = some (col[q + 1].colour) := by
    unfold colourAt cellAt
    rw [hcol, Option.some_bind, hcq1, Option.map_some']
  have hset1 : setCellColour st x (q : Int) (col[q + 1].colour)
      = some (st.set x.toNat (col.set q { col[q] with colour := col[q + 1].colour })) := by
    simp only [setCellColour, hcol, hcq, hqn]
  set col1 := col.set q { col[q] with colour := col[q + 1].colour } with hcol1
  have hjs1 : jsIndex (st.set x.toNat col1) x = some col1 := jsIndex_set_self hcol col1
  have hc1q1 : jsIndex col1 ((q : Int) + 1) = some col[q + 1] := by
    unfold jsIndex
    rw [if_pos hq10, hq1n, hcol1]
    rw [List.getElem?_set_ne (by omega)]
    rw [List.getElem?_eq_getElem hq1]
  set col2 := col1.set (q + 1) { col[q + 1] with colour := none } with hcol2
  have hset2 : setCellColour (st.set x.toNat col1) x ((q : Int) + 1) none
      = some ((st.set x.toNat col1).set x.toNat col2) := by
    simp only [setCellColour, hjs1, hc1q1, hq1n, hcol2]
  refine ⟨(st.set x.toNat col1).set x.toNat col2, col2, ?_, by simp, ?_, ?_, ?_, ?_, ?_⟩
  · simp only [moveBlockDown, hcolAt, hset1, hset2]
  · intro i hne
    rw [jsIndex_set_ne hx0 _ hne, jsIndex_set_ne hx0 _ hne]
  · rw [List.set_set]
    have : jsIndex (st.set x.toNat col1) x = some col1 := hjs1
    exact jsIndex_set_self hcol col2
  · rw [hcol2, hcol1]
    simp
  · rw [hcol2, hcol1]
    have hmapset : ∀ (l : List Block) (n : Nat) (a : Block) (hn : n < l.length),
        (a.x, a.y) = (l[n].x, l[n].y) →
        (List.map (fun b => (b.x, b.y)) (l.set n a))
          = List.map (fun b => (b.x, b.y)) l := by
      intro l n a hn ha
      rw [List.map_set, ha]
      have hmap_n : n < (List.map (fun b => (b.x, b.y)) l).length := by simpa using hn
      have hx : (l[n].x, l[n].y) = (List.map (fun b => (b.x, b.y)) l)[n] := by
        rw [List.getElem_map]
      rw [hx]
      exact listSetSelf hmap_n
    rw [hmapset (col.set q { col[q] with colour := col[q + 1].colour }) (q + 1)
      { col[q + 1] with colour := none } (by simp; omega)
      (by rw [List.getElem_set_ne (by omega)])]
    rw [hmapset col q { col[q] with colour := col[q + 1].colour } hq rfl]
  · rw [hcol2, hcol1]
    have hgd : (List.map Block.colour col).getD (q + 1) none = col[q + 1].colour := by
      rw [List.getD_eq_getElem _ _ (by simpa using hq1), List.getElem_map]
    rw [hgd]
    rw [List.map_set, List.map_set]

theorem take_set_of_le {l : List α} {m n : Nat} {a : α} (h : n ≤ m) :
    (l.set m a).take n = l.take n := by
  apply List.ext_getElem
  · simp
  · intro i h1 h2
    rw [List.getElem_take, List.getElem_take]
    rw [List.getElem_set_ne (by
      have hi : i < n := by
        have := h1
        simp only [List.length_take, List.length_set] at this
        omega
      omega)]

theorem collapseAt_spec_active {cs : List (Option String)} {q : Nat}
    (hq1 : q + 1 < cs.length) (hn : cs.getD q (some "") = none) :
    collapseAt cs q = cs.take q ++ cs.drop (q + 1) ++ [none] := by
  unfold collapseAt
  rw [if_pos ⟨hq1, hn⟩]

theorem collapseAt_spec_inactive {cs : List (Option String)} {q : Nat}
    (hcond : ¬ (q + 1 < cs.length ∧ cs.getD q (some "") = none)) :
    collapseAt cs q = cs := by
  unfold collapseAt
  rw [if_neg hcond]

theorem collapseAt_compose (cs : List (Option String)) (q : Nat) (hq1 : q + 1 < cs.length)
    (hn : cs.getD q (some "") = none) :
    collapseAt ((cs.set q (cs.getD (q + 1) none)).set (q + 1) none) (q + 1)
      = collapseAt cs q := by
  have hq : q < cs.length := by omega
  have hv : cs.getD (q + 1) none = cs[q + 1] := List.getD_eq_getElem _ _ hq1
  set cs2 := (cs.set q (cs.getD (q + 1) none)).set (q + 1) none with hcs2
  have hlen2 : cs2.length = cs.length := by simp [hcs2]
  rw [collapseAt_spec_active hq1 hn]
  have ht1 : cs2.take (q + 1) = cs.take q ++ [cs[q + 1]] := by
    rw [hcs2, take_set_of_le (Nat.le_refl (q + 1))]
    rw [List.take_succ]
    rw [take_set_of_le (Nat.le_refl q)]
    rw [List.getElem?_set_self (by omega), hv]
    rfl
  by_cases hq2 : q + 2 < cs.length
  · have hcond2 : (q + 1) + 1 < cs2.length ∧ cs2.getD (q + 1) (some "") = none := by
      refine ⟨by omega, ?_⟩
      rw [List.getD_eq_getElem _ _ (by omega)]
      simp only [hcs2]
      rw [List.getElem_set_self]
    rw [collapseAt_spec_active hcond2.1 hcond2.2]
    have hd1 : cs2.drop (q + 2) = cs.drop (q + 2) := by
      rw [hcs2, List.drop_set, if_pos (by omega), List.drop_set, if_pos (by omega)]
    have hdrop : cs.drop (q + 1) = cs[q + 1] :: cs.drop (q + 2) :=
      List.drop_eq_getElem_cons hq1
    rw [ht1, hd1, hdrop]
    simp
  · have hq2' : q + 2 = cs.length := by omega
    rw [collapseAt_spec_inactive (by
      intro hcc
      rw [hlen2] at hcc
      omega)]
    have hsplit : cs2 = cs2.take (q + 1) ++ cs2.drop (q + 1) :=
      (List.take_append_drop (q + 1) cs2).symm
    have hd2 : cs2.drop (q + 1) = [none] := by
      rw [hcs2]
      rw [List.drop_set, if_neg (by omega)]
      rw [List.drop_set, if_pos (by omega)]
      have : cs.drop (q + 1) = cs[q + 1] :: cs.drop (q + 2) :=
        List.drop_eq_getElem_cons hq1
      rw [this]
      have : cs.drop (q + 2) = [] := by
        have : cs.length ≤ q + 2 := by omega
        simp [List.drop_eq_nil_iff_le.mpr this]
      rw [this]
      simp
    have hdrop : cs.drop (q + 1) = [cs[q + 1]] := by
      rw [List.drop_eq_getElem_cons hq1]
      have : cs.drop (q + 2) = [] := by
        have : cs.length ≤ q + 2 := by omega
        simp [List.drop_eq_nil_iff_le.mpr this]
      rw [this]
    rw [hsplit, ht1, hd2, hdrop]

theorem blockBelowIsEmpty_eval {st : Storage} {x : Int} {col : List Block}
    (hcol : jsIndex st x = some col) (q : Nat) (hq : q < col.length) :
    blockBelowIsEmpty st x (q : Int)
      = some ((col[q].colour == none) && decide (q + 1 < col.length)) := by
  unfold blockBelowIsEmpty
  rw [hcol, Option.some_bind]
  have hq0 : (0 : Int) ≤ (q : Int) := Int.ofNat_nonneg q
  have hcq : jsIndex col (q : Int) = some col[q] := by
    unfold jsIndex
    rw [if_pos hq0]
    exact List.getElem?_eq_getElem hq
  rw [hcq, Option.map_some']
  congr 1
  congr 1
  by_cases h1 : q + 1 < col.length
  · have hs : (jsIndex col ((q : Int) + 1)).isSome = true := by
      rw [jsIndex_isSome_iff]
      constructor
      · omega
      · omega
    rw [hs, decide_eq_true h1]
  · have hs : jsIndex col ((q : Int) + 1) = none := by
      apply jsIndex_eq_none_of
      intro hcc
      omega
    rw [hs]
    simp [h1]

theorem shiftLoop_spec : ∀ (k : Nat) (st : Storage) (x : Int) (q : Nat) (col : List Block),
    jsIndex st x = some col → q < col.length → col.length - q ≤ k →
    ∃ (st' : Storage) (col' : List Block),
      shiftLoop st x (q : Int) = some st' ∧
      st'.length = st.length ∧
      (∀ i : Int, i ≠ x → jsIndex st' i = jsIndex st i) ∧
      jsIndex st' x = some col' ∧
      col'.length = col.length ∧
      (col'.map fun b => (b.x, b.y)) = (col.map fun b => (b.x, b.y)) ∧
      col'.map Block.colour = collapseAt (col.map Block.colour) q := by
  intro k
  induction k with
  | zero =>
    intro st x q col hcol hq hk
    omega
  | succ k ih =>
    intro st x q col hcol hq hk
    have hbbe := blockBelowIsEmpty_eval hcol q hq
    by_cases hcond : col[q].colour = none ∧ q + 1 < col.length
    · obtain ⟨hcnone, hq1⟩ := hcond
      have hbbe' : blockBelowIsEmpty st x (q : Int) = some true := by
        rw [hbbe, hcnone]
        simp [hq1]
      obtain ⟨st2, col2, hmv, hlen2, hother2, hcol2, hclen2, hcoords2, hcolours2⟩ :=
        moveBlockDown_spec hcol q hq1
      obtain ⟨st', col', hloop', hlen', hother', hcol', hclen', hcoords', hcolours'⟩ :=
        ih st2 x (q + 1) col2 hcol2 (by omega) (by omega)
      have hcast : ((q : Int) + 1) = ((q + 1 : Nat) : Int) := by omega
      refine ⟨st', col', ?_, by rw [hlen', hlen2], ?_, hcol', by rw [hclen', hclen2], ?_, ?_⟩
      · rw [shiftLoop.eq_def]
        split
        · rename_i heq
          rw [hbbe'] at heq
          exact Option.noConfusion heq
        · rename_i heq
          rw [hbbe'] at heq
          simp at heq
        · rename_i heq
          split
          · rename_i heq2
            rw [hmv] at heq2
            exact Option.noConfusion heq2
          · rename_i st2x heq2
            rw [hmv] at heq2
            obtain hst2 := Option.some.inj heq2
            rw [← hst2, hcast]
            exact hloop'
      · intro i hne
        rw [hother' i hne, hother2 i hne]
      · rw [hcoords', hcoords2]
      · rw [hcolours', hcolours2]
        apply collapseAt_compose
        · simpa using hq1
        · rw [List.getD_eq_getElem _ _ (by simpa using hq)]
          rw [List.getElem_map]
          exact hcnone
    · have hfalse : (col[q].colour == none && decide (q + 1 < col.length)) = false := by
        rcases not_and_or.mp hcond with hc | hc
        · simp [beq_eq_false_iff_ne.mpr hc]
        · simp [hc]
      have hbbe' : blockBelowIsEmpty st x (q : Int) = some false := by
        rw [hbbe, hfalse]
      refine ⟨st, col, ?_, rfl, fun i _ => rfl, hcol, rfl, rfl, ?_⟩
      · rw [shiftLoop.eq_def]
        split
        · rename_i heq
          rw [hbbe'] at heq
          exact Option.noConfusion heq
        · rfl
        · rename_i heq
          rw [hbbe'] at heq
          simp at heq
      · rw [collapseAt_spec_inactive]
        intro hcc
        apply hcond
        constructor
        · rw [List.getD_eq_getElem _ _ (by simpa using hq), List.getElem_map] at hcc
          exact hcc.2
        · simpa using hcc.1

theorem passEffect_zero (cs : List (Option String)) : passEffect cs 0 = cs := by
  unfold passEffect
  simp

theorem passEffect_full (cs : List (Option String)) :
    passEffect cs cs.length = compactColumn cs := by
  unfold passEffect compactColumn
  rw [List.take_length, List.drop_length]
  simp

theorem passEffect_collapseAt (cs : List (Option String)) (q : Nat) (hq : q < cs.length) :
    passEffect (collapseAt cs q) q = passEffect cs (q + 1) := by
  have htq : (cs.take q).length = q := by
    simp only [List.length_take]
    omega
  have hc0 : ((cs.take q).filter Option.isSome).length ≤ q := by
    calc ((cs.take q).filter Option.isSome).length
        ≤ (cs.take q).length := List.length_filter_le _ _
      _ = q := htq
  have htake1 : cs.take (q + 1) = cs.take q ++ [cs[q]] := by
    rw [List.take_succ, List.getElem?_eq_getElem hq]
    rfl
  by_cases hnone : cs[q] = none
  · have hgd : cs.getD q (some "") = none := by
      rw [List.getD_eq_getElem _ _ hq]
      exact hnone
    by_cases hq1 : q + 1 < cs.length
    · rw [collapseAt_spec_active hq1 hgd]
      unfold passEffect
      rw [List.append_assoc (cs.take q) (cs.drop (q + 1)) [none]]
      rw [List.take_left' htq, List.drop_left' htq]
      rw [htake1, List.filter_append]
      have hfil : List.filter Option.isSome [cs[q]] = [] := by simp [hnone]
      rw [hfil, List.append_nil]
      have hrep : (q + 1) - ((cs.take q).filter Option.isSome).length
          = ((q - ((cs.take q).filter Option.isSome).length) + 1) := by omega
      rw [hrep, List.replicate_succ]
      simp
    · rw [collapseAt_spec_inactive (by intro hcc; exact hq1 hcc.1)]
      unfold passEffect
      rw [htake1, List.filter_append]
      have hfil : List.filter Option.isSome [cs[q]] = [] := by simp [hnone]
      rw [hfil, List.append_nil]
      have hdropq1 : cs.drop (q + 1) = [] := by
        rw [List.drop_eq_nil_iff]
        omega
      have hdropq : cs.drop q = [none] := by
        rw [List.drop_eq_getElem_cons hq, hnone, hdropq1]
      rw [hdropq, hdropq1]
      have hrep : (q + 1) - ((cs.take q).filter Option.isSome).length
          = ((q - ((cs.take q).filter Option.isSome).length) + 1) := by omega
      rw [hrep, List.replicate_succ]
      simp
  · have hsome : cs[q].isSome = true := Option.ne_none_iff_isSome.mp hnone
    have hgd : ¬ (q + 1 < cs.length ∧ cs.getD q (some "") = none) := by
      intro hcc
      rw [List.getD_eq_getElem _ _ hq] at hcc
      exact hnone hcc.2
    rw [collapseAt_spec_inactive hgd]
    unfold passEffect
    rw [htake1, List.filter_append]
    have hfil : List.filter Option.isSome [cs[q]] = [cs[q]] := by
      simp [List.filter, hsome]
    rw [hfil]
    rw [List.drop_eq_getElem_cons hq]
    have hrep : (q + 1) - ((cs.take q).filter Option.isSome ++ [cs[q]]).length
        = q - ((cs.take q).filter Option.isSome).length := by
      simp only [List.length_append, List.length_singleton]
      omega
    rw [hrep]
    simp

theorem shiftPass_spec : ∀ (q : Nat) (st : Storage) (x : Int) (col : List Block),
    jsIndex st x = some col → q ≤ col.length →
    ∃ (st' : Storage) (col' : List Block),
      shiftPass st x ((List.range q).reverse) = some st' ∧
      st'.length = st.length ∧
      (∀ i : Int, i ≠ x → jsIndex st' i = jsIndex st i) ∧
      jsIndex st' x = some col' ∧
      col'.length = col.length ∧
      (col'.map fun b => (b.x, b.y)) = (col.map fun b => (b.x, b.y)) ∧
      col'.map Block.colour = passEffect (col.map Block.colour) q := by
  intro q
  induction q with
  | zero =>
    intro st x col hcol hq
    refine ⟨st, col, ?_, rfl, fun i _ => rfl, hcol, rfl, rfl, (passEffect_zero _).symm⟩
    simp [shiftPass]
  | succ q ih =>
    intro st x col hcol hq
    have hrange : (List.range (q + 1)).reverse = q :: (List.range q).reverse := by
      rw [List.range_succ, List.reverse_append]
      rfl
    obtain ⟨st1, col1, hloop, hlen1, hoth1, hcol1, hclen1, hco1, hcl1⟩ :=
      shiftLoop_spec (col.length - q) st x q col hcol (by omega) (by omega)
    obtain ⟨st', col', hpass, hlen', hoth', hcol', hclen', hco', hcl'⟩ :=
      ih st1 x col1 hcol1 (by omega)
    refine ⟨st', col', ?_, by rw [hlen', hlen1], ?_, hcol', by rw [hclen', hclen1], ?_, ?_⟩
    · rw [hrange]
      simp only [shiftPass, hloop]
      exact hpass
    · intro i hne
      rw [hoth' i hne, hoth1 i hne]
    · rw [hco', hco1]
    · rw [hcl', hcl1]
      have hlencs : q < (col.map Block.colour).length := by
        simp only [List.length_map]
        omega
      exact passEffect_collapseAt (col.map Block.colour) q hlencs

theorem compactColumn_idem (cs : List (Option String)) :
    compactColumn (compactColumn cs) = compactColumn cs := by
  unfold compactColumn
  have h1 : List.filter Option.isSome
      (List.replicate (cs.length - (cs.filter Option.isSome).length)
        (none : Option String)) = [] := by
    induction (cs.length - (cs.filter Option.isSome).length) with
    | zero => rfl
    | succ n ihn =>
      rw [List.replicate_succ]
      rw [List.filter_cons]
      simp only [Option.isSome_none, Bool.false_eq_true, if_false]
      exact ihn
  have h2 : List.filter Option.isSome (cs.filter Option.isSome)
      = cs.filter Option.isSome := by
    rw [List.filter_filter]
    simp [Bool.and_self]
  have hf : List.filter Option.isSome (cs.filter Option.isSome ++
      List.replicate (cs.length - (cs.filter Option.isSome).length) none)
      = cs.filter Option.isSome := by
    rw [List.filter_append, h1, h2, List.append_nil]
  rw [hf]
  have hlen : (cs.filter Option.isSome ++
      List.replicate (cs.length - (cs.filter Option.isSome).length) none).length
      = cs.length := by
    simp only [List.length_append, List.length_replicate]
    have := List.length_filter_le Option.isSome cs
    omega
  rw [hlen]

theorem WFS_jsIndex {w h : Nat} {st : Storage} (hw : WFS w h st) {x : Int}
    (hx0 : 0 ≤ x) (hxw : x.toNat < w) :
    ∃ col, jsIndex st x = some col ∧ col.length = h := by
  obtain ⟨hlen, hcols⟩ := hw
  have hxl : x.toNat < st.length := by omega
  exact ⟨st.get ⟨x.toNat, hxl⟩, jsIndex_of_valid hx0 hxl,
    hcols _ (List.get_mem _ _ _)⟩

theorem shapeOf_eq_of_cols {st st' : Storage} (hlen : st'.length = st.length)
    (hcols : ∀ n : Nat, n < st.length →
      ∃ c c', jsIndex st (n : Int) = some c ∧ jsIndex st' (n : Int) = some c' ∧
        c'.map (fun b => (b.x, b.y)) = c.map (fun b => (b.x, b.y))) :
    shapeOf st' = shapeOf st := by
  unfold shapeOf
  apply List.ext_getElem
  · simp [hlen]
  · intro n h1 h2
    have hn : n < st.length := by simpa using h2
    have hn' : n < st'.length := by omega
    simp only [List.getElem_map]
    obtain ⟨c, c', hc, hc', heq⟩ := hcols n hn
    have hcn : st[n] = c := jsIndex_getElem hc (by simpa using hn)
    have hcn' : st'[n] = c' := jsIndex_getElem hc' (by simpa using hn')
    rw [hcn, hcn', heq]

theorem WFS_of_cols {w h : Nat} {st st' : Storage} (hw : WFS w h st)
    (hlen : st'.length = st.length)
    (hcols : ∀ n : Nat, n < st.length →
      ∃ c', jsIndex st' (n : Int) = some c' ∧ c'.length = h) :
    WFS w h st' := by
  refine ⟨by rw [hlen]; exact hw.1, ?_⟩
  intro col' hcol'
  rw [List.mem_iff_getElem] at hcol'
  obtain ⟨n, hn, hget⟩ := hcol'
  obtain ⟨c', hc', hlc⟩ := hcols n (by omega)
  have hgn : st'[n] = c' := jsIndex_getElem hc' hn
  rw [← hget, hgn, hlc]

theorem shiftRemovedBlocks_spec : ∀ (removed : List (Int × Int)) (w h : Nat)
    (st : Storage), WFS w h st → (∀ p ∈ removed, 0 ≤ p.1 ∧ p.1.toNat < w) →
    ∃ st' : Storage, shiftRemovedBlocks h st removed = some st' ∧
      WFS w h st' ∧
      shapeOf st' = shapeOf st ∧
      (∀ i : Int, (∃ y, (i, y) ∈ removed) →
        colsOf st' i = (colsOf st i).map compactColumn) ∧
      (∀ i : Int, (∀ y, (i, y) ∉ removed) → jsIndex st' i = jsIndex st i) := by
  intro removed
  induction removed with
  | nil =>
    intro w h st hw hb
    refine ⟨st, by simp [shiftRemovedBlocks], hw, rfl, ?_, fun i _ => rfl⟩
    rintro i ⟨y, hy⟩
    exact absurd hy (List.not_mem_nil _)
  | cons hd rest ih =>
    intro w h st hw hb
    obtain ⟨x0, y0⟩ := hd
    obtain ⟨hx0, hxw⟩ := hb (x0, y0) (List.mem_cons_self _ _)
    obtain ⟨col, hcol, hclh⟩ := WFS_jsIndex hw hx0 hxw
    obtain ⟨st1, col1, hpass, hlen1, hoth1, hcol1, hclen1, hco1, hcl1⟩ :=
      shiftPass_spec h st x0 col hcol (by omega)
    have hcomp1 : colsOf st1 x0 = (colsOf st x0).map compactColumn := by
      unfold colsOf
      rw [hcol1, hcol]
      simp only [Option.map_some', Option.some.injEq]
      rw [hcl1]
      have hh : h = (col.map Block.colour).length := by
        simp [hclh]
      rw [hh]
      exact passEffect_full (col.map Block.colour)
    have hw1 : WFS w h st1 := by
      apply WFS_of_cols hw hlen1
      intro n hn
      by_cases hnx : (n : Int) = x0
      · refine ⟨col1, by rw [hnx]; exact hcol1, by rw [hclen1, hclh]⟩
      · obtain ⟨c, hc, hlc⟩ := WFS_jsIndex hw (Int.ofNat_nonneg n) (by
          have := hw.1
          omega)
        exact ⟨c, by rw [hoth1 _ hnx]; exact hc, hlc⟩
    obtain ⟨st', hrun, hw', hsh', hcomp', hunch'⟩ := ih w h st1 hw1
      (fun p hp => hb p (List.mem_cons_of_mem _ hp))
    have hsh1 : shapeOf st1 = shapeOf st := by
      apply shapeOf_eq_of_cols hlen1
      intro n hn
      by_cases hnx : (n : Int) = x0
      · exact ⟨col, col1, by rw [hnx]; exact hcol, by rw [hnx]; exact hcol1, hco1⟩
      · have hn0 : (0 : Int) ≤ (n : Int) := Int.ofNat_nonneg n
        have hnl : ((n : Int)).toNat < st.length := by simpa using hn
        refine ⟨st.get ⟨n, by simpa using hn⟩, st.get ⟨n, by simpa using hn⟩, ?_, ?_, rfl⟩
        · exact jsIndex_of_valid hn0 (by simpa using hn)
        · rw [hoth1 _ hnx]
          exact jsIndex_of_valid hn0 (by simpa using hn)
    have hcols1 : ∀ i : Int, i ≠ x0 → colsOf st1 i = colsOf st i := by
      intro i hne
      unfold colsOf
      rw [hoth1 i hne]
    refine ⟨st', ?_, hw', by rw [hsh', hsh1], ?_, ?_⟩
    · simp only [shiftRemovedBlocks, hpass]
      exact hrun
    · intro i hex
      obtain ⟨y, hy⟩ := hex
      by_cases hrest : ∃ y2, (i, y2) ∈ rest
      · rw [hcomp' i hrest]
        by_cases hix : i = x0
        · subst hix
          rw [hcomp1]
          cases hcso : colsOf st i with
          | none => rfl
          | some cs =>
            simp only [Option.map_some', compactColumn_idem]
        · rw [hcols1 i hix]
      · have hhead : (i, y) = (x0, y0) := by
          rcases List.mem_cons.mp hy with h1 | h1
          · exact h1
          · exact absurd ⟨y, h1⟩ hrest
        have hix : i = x0 := congrArg Prod.fst hhead
        subst hix
        rw [show colsOf st' i = colsOf st1 i from by
          unfold colsOf
          rw [hunch' i (fun y2 hy2 => hrest ⟨y2, hy2⟩)]]
        exact hcomp1
    · intro i hnone
      have hne : i ≠ x0 := by
        intro hc
        exact hnone y0 (by rw [hc]; exact List.mem_cons_self _ _)
      rw [hunch' i (fun y2 hy2 => hnone y2 (List.mem_cons_of_mem _ hy2)), hoth1 i hne]

/-- C2: for a well-formed grid and a removed-list of in-bounds coordinates
(the state produced by the removal phase), `shiftBlocksDownward` succeeds and
for every column that contained at least one removed cell the column's colour
sequence becomes `compactColumn` of its previous value — the surviving
non-empty colours in their original bottom-to-top order followed by the empty
markers, contiguous at the top (highest `y`); a fully cleared column therefore
stays fully empty.  Columns with no removals are exactly unchanged, and the
grid's dimensions and cell skeleton are untouched. -/
theorem claim_C2 {g : BlockGrid} (hw : g.WF) {removed : List (Int × Int)}
    (hrb : ∀ p ∈ removed, withinBoundaries g.width g.height p.1 p.2 = true) :
    ∃ g' : BlockGrid, g.shiftBlocksDownward removed = some g' ∧
      g'.width = g.width ∧ g'.height = g.height ∧ g'.WF ∧
      shapeOf g'.grid = shapeOf g.grid ∧
      (∀ i : Int, (∃ y, (i, y) ∈ removed) →
        colsOf g'.grid i = (colsOf g.grid i).map compactColumn) ∧
      (∀ i : Int, (∀ y, (i, y) ∉ removed) → jsIndex g'.grid i = jsIndex g.grid i) := by
  have hb' : ∀ p ∈ removed, 0 ≤ p.1 ∧ p.1.toNat < g.width := by
    intro p hp
    obtain ⟨h1, h2, h3, h4⟩ := withinBoundaries_iff.mp (hrb p hp)
    exact ⟨h1, by omega⟩
  obtain ⟨st', hrun, hw', hsh, hcomp, hunch⟩ :=
    shiftRemovedBlocks_spec removed g.width g.height g.grid hw hb'
  refine ⟨{ g with grid := st' }, ?_, rfl, rfl, hw', hsh, hcomp, hunch⟩
  unfold BlockGrid.shiftBlocksDownward
  rw [hrun]
  rfl

theorem claim_C2_witness :
    ∃ g' : BlockGrid,
      BlockGrid.shiftBlocksDownward
        ⟨1, 3, [[{ x := 0, y := 0, colour := none }, { x := 0, y := 1, colour := some "green" },
                 { x := 0, y := 2, colour := none }]]⟩ [(0, 0)] = some g' ∧
      g'.width = 1 ∧ g'.height = 3 ∧ g'.WF ∧
      shapeOf g'.grid = shapeOf [[{ x := 0, y := 0, colour := none },
        { x := 0, y := 1, colour := some "green" }, { x := 0, y := 2, colour := none }]] ∧
      (∀ i : Int, (∃ y, (i, y) ∈ ([(0, 0)] : List (Int × Int))) →
        colsOf g'.grid i = (colsOf [[{ x := 0, y := 0, colour := none },
          { x := 0, y := 1, colour := some "green" },
          { x := 0, y := 2, colour := none }]] i).map compactColumn) ∧
      (∀ i : Int, (∀ y, (i, y) ∉ ([(0, 0)] : List (Int × Int))) →
        jsIndex g'.grid i = jsIndex [[{ x := 0, y := 0, colour := none },
          { x := 0, y := 1, colour := some "green" },
          { x := 0, y := 2, colour := none }]] i) :=
  claim_C2 (by exact ⟨rfl, by decide⟩) (by decide)

/-! ## Claims C6 and C8: safety and structure preservation -/

theorem removeLoop_some (w h : Nat) (colour : Option String) :
    ∀ (st : Storage) (stack : List (Int × Int)) (parsed : Finset (Int × Int))
      (removed : List (Int × Int)), WFS w h st →
    ∃ (st' : Storage) (removed' : List (Int × Int)),
      removeLoop w h colour st stack parsed removed = some (st', removed') ∧
      WFS w h st' ∧ shapeOf st' = shapeOf st ∧
      (∀ p ∈ removed', p ∈ removed ∨ withinBoundaries w h p.1 p.2 = true) := by
  intro st stack parsed removed
  induction st, stack, parsed, removed using removeLoop.induct w h colour with
  | case1 st parsed removed =>
    intro hwfs
    exact ⟨st, removed, removeLoop_nil w h colour st parsed removed, hwfs, rfl,
      fun p hp => Or.inl hp⟩
  | case2 st parsed removed row column rest hg hcheck =>
    intro hwfs
    obtain ⟨b, hcell⟩ := cellAt_isSome_of_WFS hwfs hg.1
    unfold checkBlockColour at hcheck
    rw [hcell] at hcheck
    exact Option.noConfusion hcheck
  | case3 st parsed removed row column rest hg hrem0 hcheck =>
    intro hwfs
    obtain ⟨b, hcell⟩ := cellAt_isSome_of_WFS hwfs hg.1
    obtain ⟨stx, hstx⟩ := setCellColour_isSome hcell none
    unfold removeBlock at hrem0
    rw [hstx] at hrem0
    exact Option.noConfusion hrem0
  | case4 st parsed removed row column rest hg stNew hremEq hcheck ih =>
    intro hwfs
    have hsets : setCellColour st row column none = some stNew := hremEq
    have hshNew : shapeOf stNew = shapeOf st := shapeOf_setCellColour hsets
    obtain ⟨st', removed', hloop, hwfs', hsh', hbnd'⟩ :=
      ih (WFS_of_shapeOf hshNew hwfs)
    refine ⟨st', removed', ?_, hwfs', by rw [hsh', hshNew], ?_⟩
    · rw [removeLoop.eq_def]
      simp only [dif_pos hg, hcheck, if_pos, hremEq]
      exact hloop
    · intro p hp
      rcases hbnd' p hp with hp2 | hp2
      · rcases List.mem_append.mp hp2 with hp3 | hp3
        · exact Or.inl hp3
        · rw [List.mem_singleton] at hp3
          subst hp3
          exact Or.inr hg.1
      · exact Or.inr hp2
  | case5 st parsed removed row column rest hg b hcheck hfalse ih =>
    intro hwfs
    have hbb : b = false := by
      cases b
      · rfl
      · exact absurd rfl hfalse
    subst hbb
    obtain ⟨st', removed', hloop, hwfs', hsh', hbnd'⟩ := ih hwfs
    refine ⟨st', removed', ?_, hwfs', hsh', hbnd'⟩
    rw [removeLoop.eq_def]
    simp only [dif_pos hg, hcheck, Bool.false_eq_true, if_false]
    exact hloop
  | case6 st parsed removed row column rest hg ih =>
    intro hwfs
    obtain ⟨st', removed', hloop, hwfs', hsh', hbnd'⟩ := ih hwfs
    refine ⟨st', removed', ?_, hwfs', hsh', hbnd'⟩
    rw [removeLoop.eq_def]
    simp only [dif_neg hg]
    exact hloop

/-- C6: for a well-formed grid, an entire selection resolution started at an
in-bounds coordinate never reaches the out-of-bounds error: the traversal
filters every popped coordinate through `withinBoundaries` before touching
storage and the compaction only dereferences cells of the affected columns,
so `blockClicked` — whose `none` result models a thrown JS error — always
returns `some` result. -/
theorem claim_C6 {g : BlockGrid} (hw : g.WF) {x y : Int}
    (hb : withinBoundaries g.width g.height x y = true) :
    ∃ (g' : BlockGrid) (removed : List (Int × Int)),
      g.blockClicked x y = some (g', removed) := by
  obtain ⟨b, hcell⟩ := cellAt_isSome_of_WFS hw hb
  by_cases hcolour : b.colour.isSome = true
  · obtain ⟨st1, removed1, hloop, hw1, hsh1, hbnds⟩ :=
      removeLoop_some g.width g.height b.colour g.grid [(b.x, b.y)] ∅ [] hw
    have hrb : ∀ p ∈ removed1, 0 ≤ p.1 ∧ p.1.toNat < g.width := by
      intro p hp
      rcases hbnds p hp with hp2 | hp2
      · exact absurd hp2 (List.not_mem_nil p)
      · obtain ⟨h1, h2, h3, h4⟩ := withinBoundaries_iff.mp hp2
        exact ⟨h1, by omega⟩
    obtain ⟨st2, hrun2, hw2, hsh2, hcomp2, hunch2⟩ :=
      shiftRemovedBlocks_spec removed1 g.width g.height st1 hw1 hrb
    have hrc : g.removeConnectedBlocks b.x b.y b.colour
        = some ({ g with grid := st1 }, removed1) := by
      unfold BlockGrid.removeConnectedBlocks
      rw [hloop]
      rfl
    have hsb : BlockGrid.shiftBlocksDownward { g with grid := st1 } removed1
        = some { g with grid := st2 } := by
      unfold BlockGrid.shiftBlocksDownward
      rw [show ({ g with grid := st1 } : BlockGrid).height = g.height from rfl]
      rw [show ({ g with grid := st1 } : BlockGrid).grid = st1 from rfl]
      rw [hrun2]
      rfl
    refine ⟨{ g with grid := st2 }, removed1, ?_⟩
    unfold BlockGrid.blockClicked
    rw [hcell]
    simp only [hcolour, if_true, hrc, hsb]
  · have hnone : b.colour = none := by
      cases hbo : b.colour
      · rfl
      · rw [hbo] at hcolour
        exact absurd rfl hcolour
    refine ⟨g, [], ?_⟩
    unfold BlockGrid.blockClicked
    rw [hcell]
    simp only [hnone, Option.isSome_none, Bool.false_eq_true, if_false]

theorem claim_C6_witness :
    ∃ (g' : BlockGrid) (removed : List (Int × Int)),
      BlockGrid.blockClicked ⟨1, 1, [[{ x := 0, y := 0, colour := some "red" }]]⟩ 0 0
        = some (g', removed) :=
  claim_C6 (by exact ⟨rfl, by decide⟩) (by decide)

theorem removeLoop_shape (w h : Nat) (colour : Option String) :
    ∀ (st : Storage) (stack : List (Int × Int)) (parsed : Finset (Int × Int))
      (removed : List (Int × Int)) (st' : Storage) (removed' : List (Int × Int)),
    removeLoop w h colour st stack parsed removed = some (st', removed') →
    shapeOf st' = shapeOf st := by
  intro st stack parsed removed
  induction st, stack, parsed, removed using removeLoop.induct w h colour with
  | case1 st parsed removed =>
    intro st' removed' heq
    rw [removeLoop_nil] at heq
    obtain ⟨h1, h2⟩ := Prod.mk.injEq .. ▸ Option.some.inj heq
    rw [← h1]
  | case2 st parsed removed row column rest hg hcheck =>
    intro st' removed' heq
    rw [removeLoop.eq_def] at heq
    simp only [dif_pos hg, hcheck] at heq
    exact Option.noConfusion heq
  | case3 st parsed removed row column rest hg hrem0 hcheck =>
    intro st' removed' heq
    rw [removeLoop.eq_def] at heq
    simp only [dif_pos hg, hcheck, if_pos, hrem0] at heq
    exact Option.noConfusion heq
  | case4 st parsed removed row column rest hg stNew hremEq hcheck ih =>
    intro st' removed' heq
    rw [removeLoop.eq_def] at heq
    simp only [dif_pos hg, hcheck, if_pos, hremEq] at heq
    have hsh := ih st' removed' heq
    rw [hsh]
    exact shapeOf_setCellColour hremEq
  | case5 st parsed removed row column rest hg b hcheck hfalse ih =>
    intro st' removed' heq
    have hbb : b = false := by
      cases b
      · rfl
      · exact absurd rfl hfalse
    subst hbb
    rw [removeLoop.eq_def] at heq
    simp only [dif_pos hg, hcheck, Bool.false_eq_true, if_false] at heq
    exact ih st' removed' heq
  | case6 st parsed removed row column rest hg ih =>
    intro st' removed' heq
    rw [removeLoop.eq_def] at heq
    simp only [dif_neg hg] at heq
    exact ih st' removed' heq

theorem moveBlockDown_shape {st st' : Storage} {x y : Int}
    (h : moveBlockDown st x y = some st') : shapeOf st' = shapeOf st := by
  unfold moveBlockDown at h
  split at h
  · exact Option.noConfusion h
  · split at h
    · exact Option.noConfusion h
    · rename_i st1 hset1
      rw [shapeOf_setCellColour h, shapeOf_setCellColour hset1]

theorem shiftLoop_shape : ∀ (st : Storage) (x currentRow : Int) (st' : Storage),
    shiftLoop st x currentRow = some st' → shapeOf st' = shapeOf st := by
  intro st x currentRow
  induction st, x, currentRow using shiftLoop.induct with
  | case1 st x currentRow hb =>
    intro st' heq
    rw [shiftLoop.eq_def] at heq
    split at heq
    · exact Option.noConfusion heq
    · exact (Option.some.inj heq) ▸ rfl
    · rename_i heq2
      rw [hb] at heq2
      simp at heq2
  | case2 st x currentRow hb =>
    intro st' heq
    rw [shiftLoop.eq_def] at heq
    split at heq
    · exact Option.noConfusion heq
    · exact (Option.some.inj heq) ▸ rfl
    · rename_i heq2
      rw [hb] at heq2
      simp at heq2
  | case3 st x currentRow hb hm =>
    intro st' heq
    rw [shiftLoop.eq_def] at heq
    split at heq
    · exact Option.noConfusion heq
    · rename_i heq2
      rw [hb] at heq2
      simp at heq2
    · rename_i heq2
      split at heq
      · exact Option.noConfusion heq
      · rename_i st2x heq3
        rw [hm] at heq3
        exact Option.noConfusion heq3
  | case4 st x currentRow hb st2 hm ih =>
    intro st' heq
    rw [shiftLoop.eq_def] at heq
    split at heq
    · exact Option.noConfusion heq
    · rename_i heq2
      rw [hb] at heq2
      simp at heq2
    · rename_i heq2
      split at heq
      · rename_i heq3
        rw [hm] at heq3
        exact Option.noConfusion heq3
      · rename_i st2x heq3
        rw [hm] at heq3
        obtain hst2 := Option.some.inj heq3
        rw [← hst2] at heq
        rw [ih st' heq, moveBlockDown_shape hm]

theorem shiftPass_shape : ∀ (l : List Nat) (st : Storage) (x : Int) (st' : Storage),
    shiftPass st x l = some st' → shapeOf st' = shapeOf st := by
  intro l
  induction l with
  | nil =>
    intro st x st' heq
    simp only [shiftPass, Option.some.injEq] at heq
    rw [← heq]
  | cons yPos rest ih =>
    intro st x st' heq
    simp only [shiftPass] at heq
    split at heq
    · exact Option.noConfusion heq
    · rename_i st1 hst1
      rw [ih st1 x st' heq, shiftLoop_shape st x (yPos : Int) st1 hst1]

theorem shiftRemovedBlocks_shape : ∀ (removed : List (Int × Int)) (h : Nat)
    (st st' : Storage), shiftRemovedBlocks h st removed = some st' →
    shapeOf st' = shapeOf st := by
  intro removed
  induction removed with
  | nil =>
    intro h st st' heq
    simp only [shiftRemovedBlocks, Option.some.injEq] at heq
    rw [← heq]
  | cons hd rest ih =>
    intro h st st' heq
    obtain ⟨x0, y0⟩ := hd
    simp only [shiftRemovedBlocks] at heq
    split at heq
    · exact Option.noConfusion heq
    · rename_i st1 hst1
      rw [ih h st1 st' heq, shiftPass_shape _ st x0 st1 hst1]

theorem cellAt_coords_of_shapeOf {st st' : Storage} (hsh : shapeOf st' = shapeOf st)
    (p q : Int) :
    (cellAt st' p q).map (fun b => (b.x, b.y))
      = (cellAt st p q).map (fun b => (b.x, b.y)) := by
  have hlen := length_eq_of_shapeOf hsh
  unfold cellAt
  by_cases hp0 : 0 ≤ p
  · by_cases hpl : p.toNat < st.length
    · have hpl' : p.toNat < st'.length := by omega
      rw [jsIndex_of_valid hp0 hpl, jsIndex_of_valid hp0 hpl',
        Option.some_bind, Option.some_bind]
      have hcc : (st'.get ⟨p.toNat, hpl'⟩).map (fun b => (b.x, b.y))
          = (st.get ⟨p.toNat, hpl⟩).map (fun b => (b.x, b.y)) := by
        have h1 := congrArg (fun l => l[p.toNat]?) hsh
        simp only [shapeOf, List.getElem?_map] at h1
        rw [List.getElem?_eq_getElem hpl, List.getElem?_eq_getElem hpl'] at h1
        simp only [Option.map_some', Option.some.injEq] at h1
        simpa [List.get_eq_getElem] using h1
      have hlc : (st'.get ⟨p.toNat, hpl'⟩).length = (st.get ⟨p.toNat, hpl⟩).length := by
        have := congrArg List.length hcc
        simpa using this
      by_cases hq0 : 0 ≤ q
      · by_cases hql : q.toNat < (st.get ⟨p.toNat, hpl⟩).length
        · have hql' : q.toNat < (st'.get ⟨p.toNat, hpl'⟩).length := by omega
          rw [jsIndex_of_valid hq0 hql, jsIndex_of_valid hq0 hql']
          simp only [Option.map_some']
          have h2 := congrArg (fun l => l[q.toNat]?) hcc
          simp only [List.getElem?_map] at h2
          rw [List.getElem?_eq_getElem hql, List.getElem?_eq_getElem hql'] at h2
          simp only [Option.map_some', Option.some.injEq] at h2
          simpa [List.get_eq_getElem] using h2
        · rw [jsIndex_eq_none_of (fun hcc2 => hql hcc2.2),
            jsIndex_eq_none_of (fun hcc2 => hql (by omega))]
      · rw [jsIndex_eq_none_of (fun hcc2 => hq0 hcc2.1),
          jsIndex_eq_none_of (fun hcc2 => hq0 hcc2.1)]
    · rw [jsIndex_eq_none_of (fun hcc2 => hpl hcc2.2),
        jsIndex_eq_none_of (fun hcc2 => hpl (by omega))]
  · rw [jsIndex_eq_none_of (fun hcc2 => hp0 hcc2.1),
      jsIndex_eq_none_of (fun hcc2 => hp0 hcc2.1)]

/-- C8: every selection resolution preserves the grid's structure — the width
and height are unchanged, the column count and every column's length are
unchanged (no cell is deleted or reallocated), and every cell keeps its
`(x, y)` coordinates: `shapeOf`, the storage with the colours erased, is
invariant, so a cell's colour is the only thing any operation mutates. -/
theorem claim_C8 {g g' : BlockGrid} {x y : Int} {removed : List (Int × Int)}
    (hclick : g.blockClicked x y = some (g', removed)) :
    g'.width = g.width ∧ g'.height = g.height ∧
    g'.grid.length = g.grid.length ∧
    shapeOf g'.grid = shapeOf g.grid ∧
    (∀ p q : Int, (cellAt g'.grid p q).map (fun b => (b.x, b.y))
      = (cellAt g.grid p q).map (fun b => (b.x, b.y))) := by
  unfold BlockGrid.blockClicked at hclick
  split at hclick
  · exact Option.noConfusion hclick
  · rename_i b hcell
    split at hclick
    · split at hclick
      · exact Option.noConfusion hclick
      · rename_i g1 removed1 hrc
        split at hclick
        · exact Option.noConfusion hclick
        · rename_i g2 hsb
          have hinj := Option.some.inj hclick
          have hg2 : g2 = g' := congrArg Prod.fst hinj
          unfold BlockGrid.removeConnectedBlocks at hrc
          rw [Option.map_eq_some'] at hrc
          obtain ⟨pr1, hloop1, hpr1⟩ := hrc
          simp only [Prod.mk.injEq] at hpr1
          obtain ⟨hpa, hpb⟩ := hpr1
          have hg1grid : g1.grid = pr1.1 := by rw [← hpa]
          have hg1w : g1.width = g.width := by rw [← hpa]
          have hg1h : g1.height = g.height := by rw [← hpa]
          have hsh1 : shapeOf g1.grid = shapeOf g.grid := by
            rw [hg1grid]
            exact removeLoop_shape g.width g.height b.colour g.grid _ ∅ [] pr1.1 pr1.2
              (by rw [← hloop1])
          unfold BlockGrid.shiftBlocksDownward at hsb
          rw [Option.map_eq_some'] at hsb
          obtain ⟨st2, hrun2, hst2⟩ := hsb
          have hg2grid : g2.grid = st2 := by rw [← hst2]
          have hg2w : g2.width = g1.width := by rw [← hst2]
          have hg2h : g2.height = g1.height := by rw [← hst2]
          have hsh2 : shapeOf g2.grid = shapeOf g1.grid := by
            rw [hg2grid]
            exact shiftRemovedBlocks_shape removed1 g1.height g1.grid st2 hrun2
          have hshfin : shapeOf g'.grid = shapeOf g.grid := by
            rw [← hg2, hsh2, hsh1]
          exact ⟨by rw [← hg2, hg2w, hg1w], by rw [← hg2, hg2h, hg1h],
            length_eq_of_shapeOf hshfin, hshfin,
            fun p q => cellAt_coords_of_shapeOf hshfin p q⟩
    · have hinj := Option.some.inj hclick
      have hg2 : g = g' := congrArg Prod.fst hinj
      rw [← hg2]
      exact ⟨rfl, rfl, rfl, rfl, fun p q => rfl⟩

theorem claim_C8_witness :
    BlockGrid.blockClicked ⟨1, 1, [[{ x := 0, y := 0, colour := none }]]⟩ 0 0
      = some (⟨1, 1, [[{ x := 0, y := 0, colour := none }]]⟩, []) ∧
    (⟨1, 1, [[{ x := 0, y := 0, colour := none }]]⟩ : BlockGrid).width
      = (⟨1, 1, [[{ x := 0, y := 0, colour := none }]]⟩ : BlockGrid).width ∧
    shapeOf (⟨1, 1, [[{ x := 0, y := 0, colour := none }]]⟩ : BlockGrid).grid
      = shapeOf (⟨1, 1, [[{ x := 0, y := 0, colour := none }]]⟩ : BlockGrid).grid :=
  ⟨rfl, (claim_C8 (show BlockGrid.blockClicked ⟨1, 1, [[{ x := 0, y := 0, colour := none }]]⟩ 0 0
      = some (⟨1, 1, [[{ x := 0, y := 0, colour := none }]]⟩, []) from rfl)).1 ▸ rfl, rfl⟩
